import Mathlib

set_option maxRecDepth 100000

/-!
Verification development for the `sumi` bidirectional EVM/Ink interface
translator.  The definitions below are a shallow embedding of the Rust
sources (`src/sol2ink.rs`, `src/ink2sol.rs`, `src/error.rs`): pure
functions become Lean functions, the mutable `EvmTypeRegistry` becomes
explicit state passing, fallible code returns `Except`/`Option`, and the
possibly non-terminating mutual recursion of the I→E type mapper is
given explicit fuel.  External crates that the engine calls into
(`sha3`'s Keccak-256, the `json` value model, `ethabi`'s type-string
reader) are embedded faithfully where their behaviour matters to the
engine; template text that lives outside `src/` is modelled from the
specification.
-/

namespace Sumi

/-! ## JSON value model (the `json` crate as used by `sol2ink.rs`).

`item["key"]` on a non-object or missing key yields `Null`;
`members()` yields the elements of an array and nothing otherwise;
`value == "s"` compares string content and is false for non-strings. -/

inductive Json where
  | null
  | bool (b : Bool)
  | num (n : Int)
  | str (s : String)
  | arr (elems : List Json)
  | obj (fields : List (String × Json))
  deriving Repr

namespace Json

/-- `item["key"]`: first binding wins, `null` when absent or not an object. -/
def get : Json → String → Json
  | .obj fields, key =>
    match fields.lookup key with
    | some v => v
    | none => .null
  | _, _ => .null

/-- `value.members()`: elements of an array, empty otherwise. -/
def members : Json → List Json
  | .arr elems => elems
  | _ => []

/-- `value == "s"` (`JsonValue: PartialEq<&str>`). -/
def eqStr : Json → String → Bool
  | .str s, t => s == t
  | _, _ => false

/-- `value.as_str()`. -/
def asStr : Json → Option String
  | .str s => some s
  | _ => none

end Json

/-! ## The error taxonomy of `src/error.rs`.

The `Error` enum has exactly these variants; payloads that the engine
never inspects are reduced to the message strings it formats. -/

inductive Error where
  | readInput (path : String)
  | writeOutput (path : String)
  | clap
  | ioError
  | serde
  | jsonError
  | templateEngine (msg : String)
  | ethereumAbi
  | metadata (msg : String)
  deriving Repr, DecidableEq

/-! ## Keccak-256 (the `sha3::Keccak256` the selector hashing calls).

A complete executable Keccak-256: state of 25 64-bit lanes held as
`Nat`s, 24 rounds of θ, ρ+π, χ, ι, rate 1088 bits, multi-rate padding
`0x01 … 0x80`. -/

def mask64 : Nat := 0xFFFFFFFFFFFFFFFF

def rotl64 (n r : Nat) : Nat :=
  (((n <<< r) ||| (n >>> (64 - r)))) &&& mask64

/-- The round-constant LFSR over `x^8 + x^6 + x^5 + x^4 + 1`: one step
yields the output bit and the next register value. -/
def keccakLfsr (r : Nat) : Nat × Nat :=
  (r &&& 1, if r &&& 0x80 = 0 then (r <<< 1) &&& 0xFF else ((r <<< 1) ^^^ 0x71) &&& 0xFF)

/-- Keccak ι round constants, generated from the LFSR: bit `2^j - 1` of
round `ir` is the LFSR output at step `j + 7*ir`. -/
def keccakRC : List Nat :=
  ((List.range 24).foldl (fun (acc : List Nat × Nat) _ =>
    let inner := (List.range 7).foldl (fun (a : Nat × Nat) j =>
      let s := keccakLfsr a.2
      (a.1 ||| (s.1 <<< (2 ^ j - 1)), s.2)) (0, acc.2)
    (acc.1 ++ [inner.1], inner.2)) ([], 1)).1

/-- ρ rotation offsets, indexed by `x + 5*y` and generated by the
standard `(x, y) ↦ (y, 2x + 3y)` traversal: step `t` writes the
triangular number `(t+1)(t+2)/2 mod 64`. -/
def keccakRot : List Nat :=
  ((List.range 24).foldl (fun (acc : List Nat × Nat × Nat) t =>
    let tbl := acc.1
    let x := acc.2.1
    let y := acc.2.2
    (tbl.set (x + 5 * y) ((t + 1) * (t + 2) / 2 % 64), y, (2 * x + 3 * y) % 5))
    (List.replicate 25 0, 1, 0)).1

def keccakTheta (a : List Nat) : List Nat :=
  let c := (List.range 5).map fun x =>
    a.getD x 0 ^^^ a.getD (x + 5) 0 ^^^ a.getD (x + 10) 0 ^^^
      a.getD (x + 15) 0 ^^^ a.getD (x + 20) 0
  let d := (List.range 5).map fun x =>
    c.getD ((x + 4) % 5) 0 ^^^ rotl64 (c.getD ((x + 1) % 5) 0) 1
  (List.range 25).map fun i => a.getD i 0 ^^^ d.getD (i % 5) 0

def keccakRhoPi (a : List Nat) : List Nat :=
  (List.range 25).map fun i =>
    let bx := i % 5
    let by' := i / 5
    let x := (bx + 3 * by') % 5
    let y := bx
    rotl64 (a.getD (x + 5 * y) 0) (keccakRot.getD (x + 5 * y) 0)

def keccakChi (b : List Nat) : List Nat :=
  (List.range 25).map fun i =>
    let x := i % 5
    let y := i / 5
    b.getD i 0 ^^^ (((b.getD ((x + 1) % 5 + 5 * y) 0) ^^^ mask64) &&&
      b.getD ((x + 2) % 5 + 5 * y) 0)

def keccakIota (round : Nat) (a : List Nat) : List Nat :=
  a.set 0 (a.getD 0 0 ^^^ keccakRC.getD round 0)

def keccakF (a : List Nat) : List Nat :=
  (List.range 24).foldl (fun st i => keccakIota i (keccakChi (keccakRhoPi (keccakTheta st)))) a

/-- Assemble 8 bytes, little-endian, into a 64-bit lane. -/
def laneOfBytes (bs : List Nat) : Nat :=
  bs.foldr (fun b acc => b + 256 * acc) 0

def absorbBlock (st : List Nat) (block : List Nat) : List Nat :=
  keccakF ((List.range 25).map fun i =>
    st.getD i 0 ^^^ (if i < 17 then laneOfBytes ((block.drop (8 * i)).take 8) else 0))

/-- Multi-rate padding for rate 136 bytes: `0x01 0x00 … 0x80`. -/
def keccakPad (msg : List Nat) : List Nat :=
  let rem := 136 - msg.length % 136
  if rem == 1 then msg ++ [0x81]
  else msg ++ [0x01] ++ List.replicate (rem - 2) 0 ++ [0x80]

/-- Absorb the padded message 136-byte block by block.  The fuel is
structural and always sufficient since each step drops 136 > 0 bytes;
`keccak256` supplies the padded length as fuel. -/
def absorbLoop : Nat → List Nat → List Nat → List Nat
  | _, st, [] => st
  | 0, st, _ => st
  | fuel + 1, st, l => absorbLoop fuel (absorbBlock st (l.take 136)) (l.drop 136)

/-- Keccak-256 digest (32 bytes) of a byte message. -/
def keccak256 (msg : List Nat) : List Nat :=
  let padded := keccakPad msg
  let final := absorbLoop padded.length (List.replicate 25 0) padded
  (List.range 32).map fun k => (final.getD (k / 8) 0 >>> (8 * (k % 8))) &&& 255

/-! ## UTF-8 encoding and lowercase hex (the `hex` crate's `encode_hex`). -/

def utf8Char (c : Nat) : List Nat :=
  if c < 0x80 then [c]
  else if c < 0x800 then [0xC0 ||| (c >>> 6), 0x80 ||| (c &&& 0x3F)]
  else if c < 0x10000 then
    [0xE0 ||| (c >>> 12), 0x80 ||| ((c >>> 6) &&& 0x3F), 0x80 ||| (c &&& 0x3F)]
  else
    [0xF0 ||| (c >>> 18), 0x80 ||| ((c >>> 12) &&& 0x3F),
     0x80 ||| ((c >>> 6) &&& 0x3F), 0x80 ||| (c &&& 0x3F)]

def utf8Bytes (s : String) : List Nat :=
  (s.data.map fun ch => utf8Char ch.toNat).flatten

def hexDigits : List Char := "0123456789abcdef".data

def byteHex (b : Nat) : String :=
  String.mk [hexDigits.getD (b / 16 % 16) '0', hexDigits.getD (b % 16) '0']

/-- Lowercase hex rendering of a byte list (`hex::encode_hex`). -/
def bytesHex : List Nat → String
  | [] => ""
  | b :: bs => byteHex b ++ bytesHex bs

/-! ## `ethabi::ParamType` and the E→I type translation of `sol2ink.rs`. -/

inductive ParamType where
  | address
  | bytes
  | int (size : Nat)
  | uint (size : Nat)
  | bool
  | string
  | array (inner : ParamType)
  | fixedBytes (size : Nat)
  | fixedArray (inner : ParamType) (size : Nat)
  | tuple (inner : List ParamType)
  deriving Repr

/-- `str::parse::<usize>`: non-empty all-digit strings only. -/
def parseUsize (cs : List Char) : Option Nat :=
  if cs.isEmpty then none
  else if cs.all (fun c => 48 ≤ c.toNat && c.toNat ≤ 57) then
    some (cs.foldl (fun a c => a * 10 + (c.toNat - 48)) 0)
  else none

/-- `str::starts_with`, on character lists. -/
def startsWithChars : List Char → List Char → Bool
  | [], _ => true
  | _ :: _, [] => false
  | p :: ps, c :: cs => p == c && startsWithChars ps cs

/-- Models the external `ethabi::param_type::Reader::read`: array
suffixes are peeled from the right (the segment after the last opening
bracket), then the base name is matched; `uintN`/`intN`/`bytesN`
suffixes are parsed as `usize`.  Fuel is structural; each recursive
step removes at least the two bracket characters, so the initial
string length suffices. -/
def readPT : Nat → List Char → Option ParamType
  | 0, _ => none
  | fuel + 1, cs =>
    match cs.getLast? with
    | some ']' =>
      let rev := (cs.reverse).drop 1
      let numRev := rev.takeWhile (· ≠ '[')
      if rev.length = numRev.length then none
      else
        let num := numRev.reverse
        match readPT fuel (cs.take (cs.length - num.length - 2)) with
        | none => none
        | some sub =>
          if num.isEmpty then some (.array sub)
          else
            match parseUsize num with
            | some n => some (.fixedArray sub n)
            | none => none
    | _ =>
      let s := String.mk cs
      if s = "address" then some .address
      else if s = "bytes" then some .bytes
      else if s = "bool" then some .bool
      else if s = "string" then some .string
      else if s = "int" then some (.int 256)
      else if s = "tuple" then some (.tuple [])
      else if s = "uint" then some (.uint 256)
      else if startsWithChars "int".data cs then (parseUsize (cs.drop 3)).map (.int ·)
      else if startsWithChars "uint".data cs then (parseUsize (cs.drop 4)).map (.uint ·)
      else if startsWithChars "bytes".data cs then (parseUsize (cs.drop 5)).map (.fixedBytes ·)
      else none

def readParamType (s : String) : Option ParamType :=
  readPT (s.data.length + 1) s.data

mutual

/-- `convert_type` of `src/sol2ink.rs`: the Solidity→Rust type text
translation, structurally recursive and total. -/
def convert_type : ParamType → String
  | .bool => "bool"
  | .address => "H160"
  | .array inner => "Vec<" ++ convert_type inner ++ ">"
  | .fixedArray inner size => "[" ++ convert_type inner ++ "; " ++ toString size ++ "]"
  | .tuple inner => "(" ++ String.intercalate ", " (convertTypeList inner) ++ ")"
  | .fixedBytes size => "FixedBytes<" ++ toString size ++ ">"
  | .bytes => "Vec<u8>"
  | .string => "String"
  | .int size =>
    match size with
    | 8 => "i8"
    | 16 => "i16"
    | 32 => "i32"
    | 64 => "i64"
    | 128 => "i128"
    | _ => "I256"
  | .uint size =>
    match size with
    | 8 => "u8"
    | 16 => "u16"
    | 32 => "u32"
    | 64 => "u64"
    | 128 => "u128"
    | _ => "U256"

def convertTypeList : List ParamType → List String
  | [] => []
  | t :: ts => convert_type t :: convertTypeList ts

end

/-! ## The E→I pipeline of `sol2ink.rs::render`. -/

structure Input where
  name : String
  evm_type : String
  rust_type : String
  deriving Repr, DecidableEq

structure Function where
  name : String
  inputs : List Input
  output : String
  selector : String
  selector_hash : String
  deriving Repr, DecidableEq

structure Variant where
  inputs : List Input
  output : String
  selector : String
  selector_hash : String
  deriving Repr, DecidableEq

structure OverloadedFunction where
  name : String
  variants : List Variant
  deriving Repr, DecidableEq

structure Module where
  name : String
  evm_id : String
  functions : List Function
  overloaded_functions : List OverloadedFunction
  deriving Repr, DecidableEq

/-- The filter: kind function, non-view, every output literally `bool`. -/
def isFnItem (it : Json) : Bool :=
  (it.get "type").eqStr "function" &&
  !((it.get "stateMutability").eqStr "view") &&
  (it.get "outputs").members.all (fun o => (o.get "type").eqStr "bool")

/-- Surviving items, paired with their original ABI indices
(`enumerate` runs before the filters). -/
def survivors (j : Json) : List (Nat × Json) :=
  j.members.enum.filter (fun p => isFnItem p.2)

def nameErrMsg (i : Nat) : String :=
  "\x27name\x27 for ABI item " ++ toString i ++ " not exists or is not a string"

/-- `is_overloaded.entry(name).and_modify(|v| *v = true).or_insert(false)`. -/
def upsert : List (String × Bool) → String → List (String × Bool)
  | [], n => [(n, false)]
  | (k, b) :: rest, n =>
    if k == n then (k, true) :: rest else (k, b) :: upsert rest n

/-- Pass 1: overload detection by name equality alone. -/
def pass1 : List (Nat × Json) → List (String × Bool) → Except Error (List (String × Bool))
  | [], acc => .ok acc
  | (i, it) :: rest, acc =>
    match (it.get "name").asStr with
    | none => .error (.metadata (nameErrMsg i))
    | some n => pass1 rest (upsert acc n)

def inputNameErr (idx : Nat) (fname : String) : String :=
  "invalid \x27name\x27 input parameter " ++ toString idx ++ " of function " ++ fname

def inputTypeErr (nm : String) (idx : Nat) (fname : String) : String :=
  "invalid \x27type\x27 in input parameter item " ++ nm ++ " (" ++ toString idx ++
    ") of function " ++ fname

/-- Translation of one function's input list: raw Solidity type text is
kept verbatim in `evm_type`, the translation in `rust_type`. -/
def processInputs (fname : String) : List (Nat × Json) → Except Error (List Input)
  | [] => .ok []
  | (idx, input) :: rest =>
    match (input.get "name").asStr with
    | none => .error (.metadata (inputNameErr idx fname))
    | some nm =>
      match (input.get "type").asStr with
      | none => .error (.metadata (inputTypeErr nm idx fname))
      | some raw =>
        match readParamType raw with
        | none => .error .ethereumAbi
        | some pt =>
          match processInputs fname rest with
          | .error e => .error e
          | .ok tail =>
            .ok ({ name := nm, evm_type := raw, rust_type := convert_type pt } :: tail)

/-- Name extraction and input translation for one surviving item. -/
def processItem (i : Nat) (it : Json) : Except Error (String × List Input) :=
  match (it.get "name").asStr with
  | none => .error (.metadata (nameErrMsg i))
  | some n =>
    match processInputs n ((it.get "inputs").members.enum) with
    | .error e => .error e
    | .ok ins => .ok (n, ins)

/-- `selector = "name(t1,t2,…,tn)"`, built from the raw ABI type strings. -/
def mkSelector (n : String) (ins : List Input) : String :=
  n ++ "(" ++ String.intercalate "," (ins.map (·.evm_type)) ++ ")"

/-- First 4 bytes of Keccak-256 of the selector, lowercase hex. -/
def selectorHash (sel : String) : String :=
  bytesHex ((keccak256 (utf8Bytes sel)).take 4)

def mkFunction (n : String) (ins : List Input) : Function :=
  { name := n, inputs := ins, output := "bool",
    selector := mkSelector n ins, selector_hash := selectorHash (mkSelector n ins) }

def mkVariant (n : String) (ins : List Input) : Variant :=
  { inputs := ins, output := "bool",
    selector := mkSelector n ins, selector_hash := selectorHash (mkSelector n ins) }

/-- Append a variant to the group of its name, creating the group at
the end on first occurrence. -/
def pushOverloaded : List OverloadedFunction → String → Variant → List OverloadedFunction
  | [], n, v => [{ name := n, variants := [v] }]
  | g :: gs, n, v =>
    if g.name == n then { name := g.name, variants := g.variants ++ [v] } :: gs
    else g :: pushOverloaded gs n v

/-- Pass 2: selector computation and bucketing, driven by the overload
map from pass 1. -/
def pass2 (isOver : String → Bool) :
    List (Nat × Json) → List Function → List OverloadedFunction →
    Except Error (List Function × List OverloadedFunction)
  | [], fs, ofs => .ok (fs, ofs)
  | (i, it) :: rest, fs, ofs =>
    match processItem i it with
    | .error e => .error e
    | .ok (n, ins) =>
      if isOver n then pass2 isOver rest fs (pushOverloaded ofs n (mkVariant n ins))
      else pass2 isOver rest (fs ++ [mkFunction n ins]) ofs

/-- Pass 2 and model assembly, parameterised by the overload map of
pass 1 (exposing the only data the map contributes: its lookups). -/
def buildModuleWith (over : List (String × Bool)) (j : Json) (module_name evm_id : String) :
    Except Error Module :=
  match pass2 (fun n => (over.lookup n).getD false) (survivors j) [] [] with
  | .error e => .error e
  | .ok (fs, ofs) =>
    .ok { name := module_name, evm_id := evm_id,
          functions := fs, overloaded_functions := ofs }

/-- The E→I model builder: both passes of `sol2ink.rs::render`,
assembling the `Module` aggregate handed to the template. -/
def buildModule (j : Json) (module_name evm_id : String) : Except Error Module :=
  match pass1 (survivors j) [] with
  | .error e => .error e
  | .ok over => buildModuleWith over j module_name evm_id

/-- Modelled from the spec: `templates/ink-module.txt` is not under
`src/`; the renderer expands the module template against the `Module`
aggregate.  Modelled as a deterministic serialisation of the module. -/
def renderModuleTemplate (m : Module) : String :=
  let renderInput := fun (i : Input) => i.name ++ ": " ++ i.rust_type
  let renderSig := fun (ins : List Input) (out sel hash : String) =>
    "(" ++ String.intercalate ", " (ins.map renderInput) ++ ") -> " ++ out ++
      " [" ++ sel ++ " = " ++ hash ++ "]"
  "mod " ++ m.name ++ " (evm_id " ++ m.evm_id ++ ")\n" ++
    String.join (m.functions.map fun f =>
      "fn " ++ f.name ++ renderSig f.inputs f.output f.selector f.selector_hash ++ "\n") ++
    String.join (m.overloaded_functions.map fun g =>
      "overloaded fn " ++ g.name ++ "\n" ++
        String.join (g.variants.map fun v =>
          "  variant" ++ renderSig v.inputs v.output v.selector v.selector_hash ++ "\n")) ++
    "\n"

/-- The full E→I pipeline `sol2ink.rs::render`. -/
def render (j : Json) (module_name evm_id : String) : Except Error String :=
  match buildModule j module_name evm_id with
  | .error e => .error e
  | .ok m => .ok (renderModuleTemplate m)

/-- The pipeline with the overload map supplied externally, for
stating that only the map's lookup function reaches the output. -/
def renderWith (over : List (String × Bool)) (j : Json) (module_name evm_id : String) :
    Except Error String :=
  match buildModuleWith over j module_name evm_id with
  | .error e => .error e
  | .ok m => .ok (renderModuleTemplate m)

/-- Per-item name/input extraction over a whole survivor list. -/
def processAll : List (Nat × Json) → Except Error (List (String × List Input))
  | [] => .ok []
  | (i, it) :: rest =>
    match processItem i it with
    | .error e => .error e
    | .ok p =>
      match processAll rest with
      | .error e => .error e
      | .ok ps => .ok (p :: ps)

/-- The pure bucketing underlying pass 2, on processed items. -/
def buildBuckets (isOver : String → Bool) :
    List (String × List Input) → List Function → List OverloadedFunction →
    List Function × List OverloadedFunction
  | [], fs, ofs => (fs, ofs)
  | (n, ins) :: rest, fs, ofs =>
    if isOver n then buildBuckets isOver rest fs (pushOverloaded ofs n (mkVariant n ins))
    else buildBuckets isOver rest (fs ++ [mkFunction n ins]) ofs

/-- The variant list filed under a name (empty when absent). -/
def variantsOf (n : String) (gs : List OverloadedFunction) : List Variant :=
  match gs.find? (fun g => g.name == n) with
  | some g => g.variants
  | none => []

/-- Name extraction as pass 1 performs it. -/
def survivorName (p : Nat × Json) : Option String :=
  (p.2.get "name").asStr

/-- Original index of the first surviving item whose `name` is absent
or not a string. -/
def firstBadName (s : List (Nat × Json)) : Option Nat :=
  (s.find? (fun p => (survivorName p).isNone)).map (·.1)

/-- The five fields of an ABI item the pipeline reads; everything else
in an item is ignored. -/
def itemView (it : Json) : Json × Json × Json × Json × Json :=
  (it.get "type", it.get "stateMutability", it.get "outputs", it.get "name", it.get "inputs")

/-! ## The I→E side (`src/ink2sol.rs`): decoded `scale_info` portable
types and the `EvmTypeRegistry` type mapper. -/

inductive TypeDefPrimitive where
  | bool | char | str
  | u8 | u16 | u32 | u64 | u128 | u256
  | i8 | i16 | i32 | i64 | i128 | i256
  deriving Repr, DecidableEq

structure PField where
  name : Option String
  ty : Nat
  deriving Repr, DecidableEq

structure PVariantArm where
  name : String
  fields : List PField
  index : Nat
  deriving Repr, DecidableEq

/-- `scale_info::TypeDef`; kinds the engine rejects are collapsed into
`unsupported` (the `_ => return None` arm). -/
inductive PTypeDef where
  | primitive (p : TypeDefPrimitive)
  | array (len : Nat) (typeParam : Nat)
  | composite (fields : List PField)
  | tuple (fields : List Nat)
  | variant (variants : List PVariantArm)
  | unsupported
  deriving Repr, DecidableEq

structure PType where
  path : List String
  typeDef : PTypeDef
  deriving Repr, DecidableEq

/-- The portable type registry: id-keyed source types. -/
abbrev PortableRegistry := List (Nat × PType)

def resolve (reg : PortableRegistry) (id : Nat) : Option PType :=
  reg.lookup id

/-- `EvmType` of `ink2sol.rs` (the spec's `MappedType`). -/
structure EvmType where
  definition : Option String := none
  reference : String := ""
  modifier : Option String := none
  encoder : Option String := none
  deriving Repr, DecidableEq

/-- `EvmTypeRegistry.mapping`: id → mapped type; insertion shadows. -/
abbrev EvmTypeRegistry := List (Nat × EvmType)

/-- Reference text of a primitive; `Char` is unsupported (`return None`). -/
def primReference : TypeDefPrimitive → Option String
  | .bool => some "bool"
  | .char => none
  | .str => some "string"
  | .u8 => some "uint8"
  | .u16 => some "uint16"
  | .u32 => some "uint32"
  | .u64 => some "uint64"
  | .u128 => some "uint128"
  | .u256 => some "uint256"
  | .i8 => some "int8"
  | .i16 => some "int16"
  | .i32 => some "int32"
  | .i64 => some "int64"
  | .i128 => some "int128"
  | .i256 => some "int256"

/-- `enumerate().all(|(index, variant)| index == variant.index())`. -/
def defaultIndices (vars : List PVariantArm) : Bool :=
  vars.enum.all (fun p => p.2.index == p.1)

/-- Modelled from the spec: `templates/solidity-struct.txt` is not
under `src/`; per §4.5 the struct sub-template renders a struct whose
members are the fields.  Modelled as a struct declaration text. -/
def renderStructTemplate (path : List String) (fields : List (String × String)) : String :=
  "struct " ++ String.intercalate "_" path ++ " \x7b " ++
    String.join (fields.map fun f => f.2 ++ " " ++ f.1 ++ "; ") ++ "\x7d"

/-- Modelled from the spec: `templates/solidity-encoder.txt` is not
under `src/`; per §4.5 the encoder sub-template renders the SCALE
serialisation helper for the struct view. -/
def renderEncoderTemplate (path : List String) (fields : List (String × String)) : String :=
  "function encode_" ++ String.intercalate "_" path ++ " \x7b " ++
    String.join (fields.map fun f => "append(" ++ f.1 ++ "); ") ++ "\x7d"

/-- Modelled from the spec: `templates/solidity-enum.txt` is not under
`src/`; per §4.5 the enum sub-template lists the variant names in
declaration order, discarding fields. -/
def renderEnumTemplate (path : List String) (names : List String) : String :=
  "enum " ++ String.intercalate "_" path ++ " \x7b " ++
    String.intercalate ", " names ++ " \x7d"

/-- Outcome of a mapper step.  `out` marks exhausted fuel (the Rust
recursion would still be running), `panicked` a Rust panic
(`expect`/`unwrap`), `fail` the mapper's `None` with the registry
state it left behind, `ok` a produced value with the updated state. -/
inductive Res (α : Type) where
  | out
  | panicked
  | fail (st : EvmTypeRegistry)
  | ok (st : EvmTypeRegistry) (val : α)
  deriving Repr, DecidableEq

mutual

/-- `EvmTypeRegistry::convert_type` of `ink2sol.rs`.  Fuel decreases at
every mutual call; `out` only means the given recursion budget was
insufficient. -/
def convertType : Nat → PortableRegistry → EvmTypeRegistry → Nat → PType → Res EvmType
  | 0, _, _, _, _ => .out
  | fuel + 1, reg, st, _, ty =>
    match ty.typeDef with
    | .primitive p =>
      match primReference p with
      | none => .fail st
      | some r => .ok st { reference := r }
    | .array len tp =>
      match lookupRefOrInsert fuel reg st tp with
      | .out => .out
      | .panicked => .panicked
      | .fail st' => .fail st'
      | .ok st' r =>
        if r == "uint8" && len ≤ 32 then
          .ok st' { reference := "bytes" ++ toString len }
        else
          .ok st' { reference := r ++ "[" ++ toString len ++ "]" }
    | .composite fields =>
      match fieldsToStruct fuel reg st fields.enum with
      | .out => .out
      | .panicked => .panicked
      | .fail st' => .fail st'
      | .ok st' fl =>
        .ok st' { definition := some (renderStructTemplate ty.path fl),
                  reference := String.intercalate "_" ty.path,
                  modifier := some "memory",
                  encoder := some (renderEncoderTemplate ty.path fl) }
    | .tuple ids =>
      match fieldsToStruct fuel reg st (ids.map fun i => ({ name := none, ty := i } : PField)).enum with
      | .out => .out
      | .panicked => .panicked
      | .fail st' => .fail st'
      | .ok st' fl =>
        .ok st' { definition := some (renderStructTemplate ty.path fl),
                  reference := String.intercalate "_" ty.path ++ " memory" }
    | .variant vars =>
      if defaultIndices vars then
        .ok st { definition := some (renderEnumTemplate ty.path (vars.map (·.name))),
                 reference := String.intercalate "_" ty.path }
      else .fail st
    | .unsupported => .fail st

/-- `lookup_reference_or_insert`: registry hit returns the cached
reference; a miss resolves the source type (panicking when the id is
dangling, `expect("should exist")`), converts and inserts. -/
def lookupRefOrInsert : Nat → PortableRegistry → EvmTypeRegistry → Nat → Res String
  | 0, _, _, _ => .out
  | fuel + 1, reg, st, id =>
    match st.lookup id with
    | some t => .ok st t.reference
    | none =>
      match resolve reg id with
      | none => .panicked
      | some ty =>
        match convertType fuel reg st id ty with
        | .out => .out
        | .panicked => .panicked
        | .fail st' => .fail st'
        | .ok st' t => .ok ((id, t) :: st') t.reference

/-- `fields_to_struct`: anonymous fields become `f0, f1, …`; a failed
field conversion degrades to the empty reference
(`unwrap_or_default`). -/
def fieldsToStruct : Nat → PortableRegistry → EvmTypeRegistry → List (Nat × PField) →
    Res (List (String × String))
  | 0, _, _, _ => .out
  | _ + 1, _, st, [] => .ok st []
  | fuel + 1, reg, st, (idx, f) :: rest =>
    let nm := f.name.getD ("f" ++ toString idx)
    match lookupRefOrInsert fuel reg st f.ty with
    | .out => .out
    | .panicked => .panicked
    | .fail st' =>
      match fieldsToStruct fuel reg st' rest with
      | .out => .out
      | .panicked => .panicked
      | .fail st'' => .fail st''
      | .ok st'' tail => .ok st'' ((nm, "") :: tail)
    | .ok st' r =>
      match fieldsToStruct fuel reg st' rest with
      | .out => .out
      | .panicked => .panicked
      | .fail st'' => .fail st''
      | .ok st'' tail => .ok st'' ((nm, r) :: tail)

end

/-- Outcome of the renderer's `type(id, slot)` formatter. -/
inductive FmtRes where
  | out
  | panicked
  | err (e : Error)
  | ok (st : EvmTypeRegistry) (text : String)
  deriving Repr, DecidableEq

/-- `write_buffer`: slot selection; an unknown or absent argument is
the `_ => panic!(…)` arm. -/
def slotText (arg : Option String) (t : EvmType) : Option String :=
  match arg with
  | some "reference" => some t.reference
  | some "definition" => some (t.definition.getD "")
  | some "modifier" => some (t.modifier.getD "")
  | some "encoder" => some (t.encoder.getD "")
  | _ => none

/-- The `type` formatter registered in `ink2sol.rs::render`: registry
hit writes the slot; a miss resolves (unknown id is a template
`GenericError`), converts with `.unwrap()` — a convert failure is a
panic, not an error value — and inserts. -/
def typeFormat (fuel : Nat) (reg : PortableRegistry) (st : EvmTypeRegistry)
    (id : Nat) (arg : Option String) : FmtRes :=
  match st.lookup id with
  | some t =>
    match slotText arg t with
    | none => .panicked
    | some s => .ok st s
  | none =>
    match resolve reg id with
    | none => .err (.templateEngine ("invalid id " ++ toString id))
    | some ty =>
      match convertType fuel reg st id ty with
      | .out => .out
      | .panicked => .panicked
      | .fail _ => .panicked
      | .ok st' t =>
        match slotText arg t with
        | none => .panicked
        | some s => .ok ((id, t) :: st') s

/-! ## Spec-side models and fixtures used by the theorems. -/

mutual

/-- The E→I translation exactly as the specification's §4.4 table
words it, for comparison with the code's `convert_type`: bool→`bool`,
address→`H160`, same-width scalars for widths 8/16/32/64/128 and
`U256`/`I256` otherwise, `FixedBytes<N>`, byte vector, target string
type, vector/fixed-length array for `T[]`/`T[N]`, and a parenthesised
comma-separated list for tuples (spacing per scenario S6). -/
def convertTypeSpec : ParamType → String
  | .bool => "bool"
  | .address => "H160"
  | .uint size =>
    if size = 8 then "u8" else if size = 16 then "u16" else if size = 32 then "u32"
    else if size = 64 then "u64" else if size = 128 then "u128" else "U256"
  | .int size =>
    if size = 8 then "i8" else if size = 16 then "i16" else if size = 32 then "i32"
    else if size = 64 then "i64" else if size = 128 then "i128" else "I256"
  | .fixedBytes size => "FixedBytes<" ++ toString size ++ ">"
  | .bytes => "Vec<u8>"
  | .string => "String"
  | .array t => "Vec<" ++ convertTypeSpec t ++ ">"
  | .fixedArray t n => "[" ++ convertTypeSpec t ++ "; " ++ toString n ++ "]"
  | .tuple ts => "(" ++ String.intercalate ", " (convertTypeSpecList ts) ++ ")"

def convertTypeSpecList : List ParamType → List String
  | [] => []
  | t :: ts => convertTypeSpec t :: convertTypeSpecList ts

end

/-- The ids a type definition refers to directly. -/
def typeRefs : PTypeDef → List Nat
  | .array _ tp => [tp]
  | .composite fields => fields.map (·.ty)
  | .tuple ids => ids
  | _ => []

/-- Reference slot of a successful mapper outcome. -/
def resReference : Res EvmType → Option String
  | .ok _ t => some t.reference
  | _ => none

/-- First-occurrence deduplication (order of first appearance). -/
def firstOccur (l : List String) : List String :=
  l.foldl (fun acc n => if n ∈ acc then acc else acc ++ [n]) []

/-- A self-referential source type: id 0 is an array over id 0. -/
def cyclicTy : PType := ⟨[], .array 1 0⟩

def cyclicReg : PortableRegistry := [(0, cyclicTy)]

/-- A variant whose discriminants `[0, 2]` are not contiguous. -/
def badVariantTy : PType := ⟨["m", "E"], .variant [⟨"A", [], 0⟩, ⟨"B", [], 2⟩]⟩

def badVariantReg : PortableRegistry := [(0, badVariantTy)]

/-- A composite with an empty path and no fields. -/
def emptyPathTy : PType := ⟨[], .composite []⟩

def emptyPathReg : PortableRegistry := [(0, emptyPathTy)]

/-- `[u8; 20]` over a `u8` at id 0 (scenario S4). -/
def byteArrayReg : PortableRegistry := [(0, ⟨[], .primitive .u8⟩), (1, ⟨[], .array 20 0⟩)]

/-- A named composite with no fields, for exercising the mapper. -/
def abCompositeTy : PType := ⟨["a", "B"], .composite []⟩

def abCompositeReg : PortableRegistry := [(0, abCompositeTy)]

/-- Scenario S1: the ERC-20 `transfer` ABI item. -/
def s1Item : Json :=
  .obj [("type", .str "function"), ("name", .str "transfer"),
        ("stateMutability", .str "nonpayable"),
        ("inputs", .arr [.obj [("name", .str "to"), ("type", .str "address")],
                         .obj [("name", .str "value"), ("type", .str "uint256")]]),
        ("outputs", .arr [.obj [("name", .str ""), ("type", .str "bool")]])]

def s1Abi : Json := .arr [s1Item]

def s1Fn : Function :=
  { name := "transfer",
    inputs := [{ name := "to", evm_type := "address", rust_type := "H160" },
               { name := "value", evm_type := "uint256", rust_type := "U256" }],
    output := "bool",
    selector := "transfer(address,uint256)",
    selector_hash := "a9059cbb" }

def s1Module : Module :=
  { name := "Erc20", evm_id := "0x0F", functions := [s1Fn], overloaded_functions := [] }

/-- An ABI with an overloaded name `a` (twice) and a simple `b`; all
three items have empty `outputs` and no `stateMutability`. -/
def ovItem1 : Json :=
  .obj [("type", .str "function"), ("name", .str "a"),
        ("inputs", .arr []), ("outputs", .arr [])]

def ovItem2 : Json :=
  .obj [("type", .str "function"), ("name", .str "a"),
        ("inputs", .arr [.obj [("name", .str "x"), ("type", .str "bool")]]),
        ("outputs", .arr [])]

def ovItem3 : Json :=
  .obj [("type", .str "function"), ("name", .str "b"),
        ("inputs", .arr []), ("outputs", .arr [])]

def ovAbi : Json := .arr [ovItem1, ovItem2, ovItem3]

def ovPs : List (String × List Input) :=
  [("a", []), ("a", [{ name := "x", evm_type := "bool", rust_type := "bool" }]), ("b", [])]

def ovVariant1 : Variant :=
  { inputs := [], output := "bool", selector := "a()", selector_hash := "0dbe671f" }

def ovVariant2 : Variant :=
  { inputs := [{ name := "x", evm_type := "bool", rust_type := "bool" }],
    output := "bool", selector := "a(bool)", selector_hash := "ae51c484" }

def ovFnB : Function :=
  { name := "b", inputs := [], output := "bool", selector := "b()", selector_hash := "4df7e3d0" }

def ovModule : Module :=
  { name := "M", evm_id := "0x0F", functions := [ovFnB],
    overloaded_functions := [{ name := "a", variants := [ovVariant1, ovVariant2] }] }

/-- Decidable equality for pipeline results. -/
instance instDecEqExceptSumi {e a : Type} [DecidableEq e] [DecidableEq a] :
    DecidableEq (Except e a) := fun x y =>
  match x, y with
  | .ok v, .ok w => if h : v = w then isTrue (by rw [h]) else isFalse (by simp [h])
  | .error v, .error w => if h : v = w then isTrue (by rw [h]) else isFalse (by simp [h])
  | .ok _, .error _ => isFalse (by simp)
  | .error _, .ok _ => isFalse (by simp)

/-! # Theorems -/

/-! ## String helpers -/

theorem string_append_ne_empty_left (a b : String) (ha : a ≠ "") : a ++ b ≠ "" := by
  intro h
  apply ha
  have := congrArg String.data h
  simp [String.data_append] at this
  exact String.ext this.1

theorem string_append_ne_empty_right (a b : String) (hb : b ≠ "") : a ++ b ≠ "" := by
  intro h
  apply hb
  have := congrArg String.data h
  simp [String.data_append] at this
  exact String.ext this.2

theorem lookup_mem {α β : Type} [BEq α] [LawfulBEq α] :
    ∀ (l : List (α × β)) (k : α) (v : β), l.lookup k = some v → (k, v) ∈ l
  | [], _, _, h => by simp [List.lookup] at h
  | (a, b) :: t, k, v, h => by
    rw [List.lookup] at h
    by_cases hk : k == a
    · simp [hk] at h
      subst h
      simp [List.mem_cons]
      left
      rw [eq_of_beq hk]
    · simp [hk] at h
      exact List.mem_cons_of_mem _ (lookup_mem t k v h)

/-! ## C6: the E→I type translation follows the spec table -/

mutual

theorem convert_eq_aux : ∀ t : ParamType, convert_type t = convertTypeSpec t
  | .bool => rfl
  | .address => rfl
  | .bytes => rfl
  | .string => rfl
  | .fixedBytes _ => rfl
  | .int size => by
    simp only [convert_type, convertTypeSpec]
    split <;> simp_all
  | .uint size => by
    simp only [convert_type, convertTypeSpec]
    split <;> simp_all
  | .array inner => by
    rw [convert_type, convertTypeSpec, convert_eq_aux inner]
  | .fixedArray inner size => by
    rw [convert_type, convertTypeSpec, convert_eq_aux inner]
  | .tuple inner => by
    rw [convert_type, convertTypeSpec, convertList_eq_aux inner]

theorem convertList_eq_aux : ∀ ts : List ParamType, convertTypeList ts = convertTypeSpecList ts
  | [] => rfl
  | t :: ts => by
    rw [convertTypeList, convertTypeSpecList, convert_eq_aux t, convertList_eq_aux ts]

end

/-- **C6.** The E→I type translation `convert_type` is a total pure
structural recursion on `ParamType` and agrees, on every input, with
the specification's §4.4 translation table (`convertTypeSpec`):
bool→`bool`, address→`H160`, widths 8/16/32/64/128 to same-width
same-signedness scalars and any other width to `U256`/`I256`,
`bytesN`→`FixedBytes<N>`, dynamic bytes→byte vector, string→`String`,
`T[]`→`Vec`, `T[N]`→fixed-length array, tuples→parenthesised
comma-separated list. -/
theorem convert_type_follows_spec_table :
    ∀ t : ParamType, convert_type t = convertTypeSpec t :=
  convert_eq_aux

/-! ## C5: the byte-array special case of the I→E mapper -/

/-- **C5.** For an I→E `Array(elem, len)` whose element lookup maps to
`uint8`: `len ≤ 32` yields exactly `bytes{len}`, otherwise exactly
`uint8[len]`; in both cases the mapped type has no definition (and no
modifier, no encoder). -/
theorem byte_array_special_case (fuel : Nat) (reg : PortableRegistry)
    (st st' : EvmTypeRegistry) (id len tp : Nat) (path : List String)
    (h : lookupRefOrInsert fuel reg st tp = .ok st' "uint8") :
    convertType (fuel + 1) reg st id ⟨path, .array len tp⟩ =
      if len ≤ 32 then .ok st' { reference := "bytes" ++ toString len }
      else .ok st' { reference := "uint8" ++ "[" ++ toString len ++ "]" } := by
  by_cases hl : len ≤ 32 <;> simp [convertType, h, hl]

/-- Witness: scenario S4, `[u8; 20]` maps to `bytes20` through the
theorem, and `[u8; 40]` to `uint8[40]`. -/
theorem byte_array_special_case_witness :
    (convertType 5 byteArrayReg [] 1 ⟨[], .array 20 0⟩ =
      if 20 ≤ 32 then Res.ok [(0, { reference := "uint8" })] { reference := "bytes" ++ toString 20 }
      else Res.ok [(0, { reference := "uint8" })] { reference := "uint8" ++ "[" ++ toString 20 ++ "]" }) ∧
    (convertType 5 byteArrayReg [] 1 ⟨[], .array 40 0⟩ =
      if 40 ≤ 32 then Res.ok [(0, { reference := "uint8" })] { reference := "bytes" ++ toString 40 }
      else Res.ok [(0, { reference := "uint8" })] { reference := "uint8" ++ "[" ++ toString 40 ++ "]" }) :=
  ⟨byte_array_special_case 4 byteArrayReg [] [(0, { reference := "uint8" })] 1 20 0 [] (by decide),
   byte_array_special_case 4 byteArrayReg [] [(0, { reference := "uint8" })] 1 40 0 [] (by decide)⟩

/-! ## C2: rejection of variants with non-contiguous discriminants -/

/-- **C2 (counterexample).** A variant with indices `[0, 2]`: the
renderer's `type` formatter panics (`.unwrap()` of the mapper's
`None`); no `MetadataError` value is produced anywhere — the mapper
returns `None` (`fail`) with the registry unchanged. -/
theorem variant_rejection_counterexample :
    typeFormat 10 badVariantReg [] 0 (some "reference") = .panicked ∧
    convertType 10 badVariantReg [] 0 badVariantTy = .fail [] := by
  exact ⟨rfl, rfl⟩

/-- **C2 (amended).** For a registered variant type whose declared
indices are not `0,1,…,k-1`, converting it fails without producing any
mapped type (the mapper returns `None`, leaving the registry exactly as
it was, so the id is never inserted), and the renderer's `type`
formatter panics on the `unwrap` instead of reporting a
`MetadataError`. -/
theorem variant_rejection (fuel : Nat) (reg : PortableRegistry) (st : EvmTypeRegistry)
    (id : Nat) (path : List String) (vars : List PVariantArm) (arg : Option String)
    (hres : resolve reg id = some ⟨path, .variant vars⟩)
    (hbad : defaultIndices vars = false)
    (hmiss : st.lookup id = none) :
    convertType (fuel + 1) reg st id ⟨path, .variant vars⟩ = .fail st ∧
    typeFormat (fuel + 1) reg st id arg = .panicked := by
  constructor
  · simp [convertType, hbad]
  · simp [typeFormat, hmiss, hres, convertType, hbad]

/-- Witness: the `[0, 2]` variant through the amended theorem. -/
theorem variant_rejection_witness :
    convertType 3 badVariantReg [] 0 ⟨["m", "E"], .variant [⟨"A", [], 0⟩, ⟨"B", [], 2⟩]⟩ = .fail [] ∧
    typeFormat 3 badVariantReg [] 0 (some "definition") = .panicked :=
  variant_rejection 2 badVariantReg [] 0 ["m", "E"] [⟨"A", [], 0⟩, ⟨"B", [], 2⟩]
    (some "definition") (by decide) (by decide) (by decide)

/-! ## C8: shape of the `reference` slot of mapped types -/

/-- **C8 (counterexample).** A composite with an empty path maps
successfully to a `MappedType` whose `reference` is the empty
string. -/
theorem mapped_reference_counterexample :
    resReference (convertType 5 emptyPathReg [] 0 emptyPathTy) = some "" := by
  rfl

/-- **C8 (amended).** A successfully mapped type's `reference` is
non-empty for every primitive, array and tuple source type; for
composites and variants it is exactly the path segments joined by
`_` — non-empty whenever that join is non-empty, but empty for an
empty (or all-empty-segment) path. -/
theorem mapped_reference_shape (fuel : Nat) (reg : PortableRegistry)
    (st st' : EvmTypeRegistry) (id : Nat) (ty : PType) (t : EvmType)
    (h : convertType fuel reg st id ty = .ok st' t) :
    (∀ p, ty.typeDef = .primitive p → t.reference ≠ "") ∧
    (∀ len tp, ty.typeDef = .array len tp → t.reference ≠ "") ∧
    (∀ ids, ty.typeDef = .tuple ids → t.reference ≠ "") ∧
    (∀ fields, ty.typeDef = .composite fields → t.reference = String.intercalate "_" ty.path) ∧
    (∀ vars, ty.typeDef = .variant vars → t.reference = String.intercalate "_" ty.path) := by
  obtain ⟨path, td⟩ := ty
  cases fuel with
  | zero => simp [convertType] at h
  | succ n =>
    cases td with
    | primitive p =>
      refine ⟨?_, by simp, by simp, by simp, by simp⟩
      intro p' _
      cases p <;> simp [convertType, primReference] at h <;>
        simp [← h.2, String.ext_iff]
    | array len tp =>
      refine ⟨by simp, ?_, by simp, by simp, by simp⟩
      intro len' tp' _
      simp only [convertType] at h
      cases hr : lookupRefOrInsert n reg st tp <;> rw [hr] at h <;> try simp at h
      rename_i st'' r
      split at h <;> simp at h <;> obtain ⟨h1, h2⟩ := h <;> subst h2
      · exact string_append_ne_empty_left _ _ (by simp [String.ext_iff])
      · exact string_append_ne_empty_right _ _ (by simp [String.ext_iff])
    | composite fields =>
      refine ⟨by simp, by simp, by simp, ?_, by simp⟩
      intro fields' _
      simp only [convertType] at h
      cases hr : fieldsToStruct n reg st fields.enum <;> rw [hr] at h <;> simp at h
      exact h.2.symm ▸ rfl
    | tuple ids =>
      refine ⟨by simp, by simp, ?_, by simp, by simp⟩
      intro ids' _
      simp only [convertType] at h
      cases hr : fieldsToStruct n reg st (ids.map fun i => ({ name := none, ty := i } : PField)).enum <;>
        rw [hr] at h <;> simp at h
      exact h.2 ▸ string_append_ne_empty_right _ _ (by simp [String.ext_iff])
    | variant vars =>
      refine ⟨by simp, by simp, by simp, by simp, ?_⟩
      intro vars' _
      simp only [convertType] at h
      by_cases hd : defaultIndices vars <;> simp [hd] at h
      exact h.2.symm ▸ rfl
    | unsupported => simp [convertType] at h

/-- Witness: the empty-fields composite at path `a_B` through the
amended theorem — its reference is the joined path. -/
theorem mapped_reference_shape_witness :
    EvmType.reference
        { definition := some (renderStructTemplate ["a", "B"] []),
          reference := String.intercalate "_" ["a", "B"],
          modifier := some "memory",
          encoder := some (renderEncoderTemplate ["a", "B"] []) } =
      String.intercalate "_" ["a", "B"] :=
  (mapped_reference_shape 5 abCompositeReg [] [] 0 abCompositeTy _ (by rfl)).2.2.2.1 [] rfl

/-! ## C3: termination behaviour of the I→E mapper -/

/-- On the self-referential input, no recursion budget ever settles:
the mapper would recurse forever.  There is no cycle detection. -/
theorem cyclic_never_settles :
    ∀ fuel, lookupRefOrInsert fuel cyclicReg [] 0 = .out ∧
      convertType fuel cyclicReg [] 0 cyclicTy = .out := by
  intro fuel
  induction fuel with
  | zero => exact ⟨rfl, rfl⟩
  | succ n ih =>
    have h1 := ih.1
    have h2 := ih.2
    simp only [cyclicReg, cyclicTy] at h1 h2
    refine ⟨?_, ?_⟩
    · simp [lookupRefOrInsert, resolve, cyclicReg, cyclicTy, h2]
    · simp [convertType, cyclicReg, cyclicTy, h1]

theorem snd_mem_of_mem_enumFrom {α : Type} :
    ∀ (n : Nat) (l : List α) (p : Nat × α), p ∈ List.enumFrom n l → p.2 ∈ l
  | _, [], _, h => by simp at h
  | n, a :: t, p, h => by
    rw [List.enumFrom] at h
    rcases List.mem_cons.mp h with h1 | h2
    · subst h1; simp
    · exact List.mem_cons_of_mem _ (snd_mem_of_mem_enumFrom (n + 1) t p h2)

/-- Collect per-id fuel bounds over a finite list of ids. -/
theorem bound_collect (reg : PortableRegistry) :
    ∀ l : List Nat,
      (∀ j ∈ l, ∃ F, ∀ st fuel, F ≤ fuel → lookupRefOrInsert fuel reg st j ≠ .out) →
      ∃ B, ∀ j ∈ l, ∀ st fuel, B ≤ fuel → lookupRefOrInsert fuel reg st j ≠ .out
  | [], _ => ⟨0, by simp⟩
  | j :: rest, h => by
    obtain ⟨F, hF⟩ := h j (by simp)
    obtain ⟨B, hB⟩ := bound_collect reg rest (fun k hk => h k (List.mem_cons_of_mem _ hk))
    refine ⟨max F B, ?_⟩
    intro k hk st fuel hf
    rcases List.mem_cons.mp hk with hkj | hkr
    · exact hkj ▸ hF st fuel (le_trans (le_max_left _ _) hf)
    · exact hB k hkr st fuel (le_trans (le_max_right _ _) hf)

/-- If every field's id settles under bound `B`, the field fold
settles once the fuel exceeds the list length plus `B`. -/
theorem fieldsToStruct_no_out (reg : PortableRegistry) (B : Nat) :
    ∀ l : List (Nat × PField),
      (∀ e ∈ l, ∀ st' fuel', B ≤ fuel' → lookupRefOrInsert fuel' reg st' e.2.ty ≠ .out) →
      ∀ st fuel, l.length + B + 1 ≤ fuel → fieldsToStruct fuel reg st l ≠ .out := by
  intro l
  induction l with
  | nil =>
    intro _ st fuel hf
    cases fuel with
    | zero => simp at hf
    | succ m => simp [fieldsToStruct]
  | cons e rest ih =>
    intro h st fuel hf
    obtain ⟨idx, f⟩ := e
    cases fuel with
    | zero => simp at hf
    | succ m =>
      simp only [List.length_cons] at hf
      have hL := h (idx, f) (by simp) st m (by omega)
      have hR : ∀ st', fieldsToStruct m reg st' rest ≠ .out := fun st' =>
        ih (fun e he => h e (List.mem_cons_of_mem _ he)) st' m (by omega)
      simp only [fieldsToStruct]
      cases hr : lookupRefOrInsert m reg st f.ty with
      | out => exact absurd hr hL
      | panicked => simp [hr]
      | fail st' =>
        cases hrec : fieldsToStruct m reg st' rest with
        | out => exact absurd hrec (hR st')
        | panicked => simp [hr, hrec]
        | fail st'' => simp [hr, hrec]
        | ok st'' tail => simp [hr, hrec]
      | ok st' r =>
        cases hrec : fieldsToStruct m reg st' rest with
        | out => exact absurd hrec (hR st')
        | panicked => simp [hr, hrec]
        | fail st'' => simp [hr, hrec]
        | ok st'' tail => simp [hr, hrec]

/-- If every directly referenced id settles under bound `B`, one
conversion step settles under `B` plus the number of references. -/
theorem convertType_no_out (reg : PortableRegistry) (B : Nat) (id : Nat) (ty : PType)
    (h : ∀ j ∈ typeRefs ty.typeDef, ∀ st' fuel', B ≤ fuel' → lookupRefOrInsert fuel' reg st' j ≠ .out) :
    ∀ st fuel, (typeRefs ty.typeDef).length + B + 2 ≤ fuel →
      convertType fuel reg st id ty ≠ .out := by
  intro st fuel hf
  obtain ⟨path, td⟩ := ty
  cases fuel with
  | zero => omega
  | succ m =>
    cases td with
    | primitive p =>
      simp only [convertType]
      cases hp : primReference p <;> simp [hp]
    | array len tp =>
      have hL := h tp (by simp [typeRefs]) st m (by simp [typeRefs] at hf; omega)
      simp only [convertType]
      cases hr : lookupRefOrInsert m reg st tp with
      | out => exact absurd hr hL
      | panicked => simp [hr]
      | fail st' => simp [hr]
      | ok st' r => simp only [hr]; split <;> simp
    | composite fields =>
      have hfs : fieldsToStruct m reg st fields.enum ≠ .out := by
        apply fieldsToStruct_no_out reg B
        · intro e he st' fuel' hf'
          apply h e.2.ty _ st' fuel' hf'
          simp only [typeRefs]
          exact List.mem_map_of_mem _ (snd_mem_of_mem_enumFrom 0 fields e he)
        · simp only [List.enum_length]
          simp [typeRefs] at hf
          omega
      simp only [convertType]
      cases hr : fieldsToStruct m reg st fields.enum with
      | out => exact absurd hr hfs
      | panicked => simp [hr]
      | fail st' => simp [hr]
      | ok st' fl => simp [hr]
    | tuple ids =>
      have hfs : fieldsToStruct m reg st (ids.map fun i => ({ name := none, ty := i } : PField)).enum ≠ .out := by
        apply fieldsToStruct_no_out reg B
        · intro e he st' fuel' hf'
          have h2 : e.2 ∈ ids.map fun i => ({ name := none, ty := i } : PField) :=
            snd_mem_of_mem_enumFrom 0 _ e he
          obtain ⟨i, hi, hmk⟩ := List.mem_map.mp h2
          apply h e.2.ty _ st' fuel' hf'
          simp only [typeRefs]
          rw [← hmk]
          exact hi
        · simp only [List.enum_length, List.length_map]
          simp [typeRefs] at hf
          omega
      simp only [convertType]
      cases hr : fieldsToStruct m reg st (ids.map fun i => ({ name := none, ty := i } : PField)).enum with
      | out => exact absurd hr hfs
      | panicked => simp [hr]
      | fail st' => simp [hr]
      | ok st' fl => simp [hr]
    | variant vars =>
      simp only [convertType]
      split <;> simp
    | unsupported => simp [convertType]

/-- On a source type graph whose reference relation strictly decreases
some rank (in particular, on any acyclic registry), every id settles
under a sufficient recursion budget. -/
theorem acyclic_settles (reg : PortableRegistry) (rank : Nat → Nat)
    (H : ∀ p ∈ reg, ∀ j ∈ typeRefs p.2.typeDef, rank j < rank p.1) :
    ∀ id, ∃ F, ∀ st fuel, F ≤ fuel → lookupRefOrInsert fuel reg st id ≠ .out := by
  suffices h : ∀ r id, rank id < r →
      ∃ F, ∀ st fuel, F ≤ fuel → lookupRefOrInsert fuel reg st id ≠ .out by
    exact fun id => h (rank id + 1) id (by omega)
  intro r
  induction r with
  | zero => intro id h; omega
  | succ n IH =>
    intro id hle
    cases hres : resolve reg id with
    | none =>
      refine ⟨1, ?_⟩
      intro st fuel hf
      cases fuel with
      | zero => omega
      | succ m =>
        simp only [lookupRefOrInsert]
        cases hl : List.lookup id st <;> simp [hl, hres]
    | some ty =>
      have hmem := lookup_mem reg id ty hres
      have hchild : ∀ j ∈ typeRefs ty.typeDef, rank j < rank id := H (id, ty) hmem
      obtain ⟨B, hB⟩ := bound_collect reg (typeRefs ty.typeDef)
        (fun j hj => IH j (by have := hchild j hj; omega))
      refine ⟨(typeRefs ty.typeDef).length + B + 3, ?_⟩
      intro st fuel hf
      cases fuel with
      | zero => omega
      | succ m =>
        have hct := convertType_no_out reg B id ty hB st m (by omega)
        simp only [lookupRefOrInsert]
        cases hl : List.lookup id st with
        | some t => simp [hl]
        | none =>
          simp only [hl, hres]
          cases hc : convertType m reg st id ty with
          | out => exact absurd hc hct
          | panicked => simp [hc]
          | fail st' => simp [hc]
          | ok st' t => simp [hc]

/-- **C3 (amended).** The I→E mapper has no cycle detection and no
`CyclicType` error (no such kind exists in `src/error.rs`): on a
cyclic type reference the recursion never settles — every recursion
budget is exhausted.  On inputs whose type-reference relation strictly
decreases some rank (the acyclic, well-founded case) the mapper
settles: a sufficient recursion budget exists for every id, from any
registry state. -/
theorem mapper_termination :
    (∀ fuel, convertType fuel cyclicReg [] 0 cyclicTy = .out) ∧
    (∀ (reg : PortableRegistry) (rank : Nat → Nat),
      (∀ p ∈ reg, ∀ j ∈ typeRefs p.2.typeDef, rank j < rank p.1) →
      ∀ id, ∃ F, ∀ st fuel, F ≤ fuel → lookupRefOrInsert fuel reg st id ≠ .out) :=
  ⟨fun fuel => (cyclic_never_settles fuel).2, acyclic_settles⟩

/-- Witness: the cyclic fixture exhausts a budget of 9; the acyclic
byte-array registry settles with rank `id`. -/
theorem mapper_termination_witness :
    convertType 9 cyclicReg [] 0 cyclicTy = .out ∧
    (∃ F, ∀ st fuel, F ≤ fuel → lookupRefOrInsert fuel byteArrayReg st 1 ≠ .out) :=
  ⟨mapper_termination.1 9, mapper_termination.2 byteArrayReg (fun i => i) (by decide) 1⟩

/-- **C3 (counterexample).** At the concrete cyclic input the mapper
produces no `CyclicType` failure — even a budget of 100 nested calls
is exhausted with no detection (`Res.out`), and the code's `Error`
type has no `CyclicType` constructor at all. -/
theorem mapper_cycle_counterexample :
    convertType 100 cyclicReg [] 0 cyclicTy = Res.out := by
  decide

/-! ## E→I pipeline structure lemmas -/

theorem pass2_ok (isOver : String → Bool) :
    ∀ (s : List (Nat × Json)) (fs : List Function) (ofs : List OverloadedFunction) r,
      pass2 isOver s fs ofs = .ok r →
      ∃ ps, processAll s = .ok ps ∧ r = buildBuckets isOver ps fs ofs
  | [], fs, ofs, r, h => ⟨[], rfl, by simp [pass2] at h; simp [buildBuckets, ← h]⟩
  | (i, it) :: rest, fs, ofs, r, h => by
    rw [pass2] at h
    cases hp : processItem i it with
    | error e => rw [hp] at h; exact absurd h (by simp)
    | ok p =>
      obtain ⟨n, ins⟩ := p
      rw [hp] at h
      by_cases ho : isOver n
      · simp only [ho, if_true] at h
        obtain ⟨ps, hps, hr⟩ :=
          pass2_ok isOver rest fs (pushOverloaded ofs n (mkVariant n ins)) r h
        exact ⟨(n, ins) :: ps, by simp [processAll, hp, hps], by simp [buildBuckets, ho, hr]⟩
      · simp only [ho, if_false] at h
        obtain ⟨ps, hps, hr⟩ := pass2_ok isOver rest (fs ++ [mkFunction n ins]) ofs r h
        exact ⟨(n, ins) :: ps, by simp [processAll, hp, hps], by simp [buildBuckets, ho, hr]⟩

theorem processItem_parts (i : Nat) (it : Json) (n : String) (ins : List Input)
    (h : processItem i it = .ok (n, ins)) :
    (it.get "name").asStr = some n ∧
    processInputs n ((it.get "inputs").members.enum) = .ok ins := by
  rw [processItem] at h
  cases hn : (it.get "name").asStr with
  | none => rw [hn] at h; simp at h
  | some n' =>
    rw [hn] at h
    dsimp only at h
    cases hi : processInputs n' ((it.get "inputs").members.enum) with
    | error e => rw [hi] at h; simp at h
    | ok ins' =>
      rw [hi] at h
      simp at h
      obtain ⟨h1, h2⟩ := h
      subst h1
      subst h2
      exact ⟨rfl, hi⟩

theorem processInputs_types (fname : String) :
    ∀ (l : List (Nat × Json)) (ins : List Input), processInputs fname l = .ok ins →
      l.map (fun q => (q.2.get "type").asStr) = ins.map (fun x => some x.evm_type)
  | [], ins, h => by simp [processInputs] at h; simp [← h]
  | (idx, input) :: rest, ins, h => by
    rw [processInputs] at h
    cases hn : (input.get "name").asStr with
    | none => rw [hn] at h; simp at h
    | some nm =>
      rw [hn] at h
      dsimp only at h
      cases ht : (input.get "type").asStr with
      | none => rw [ht] at h; simp at h
      | some raw =>
        rw [ht] at h
        dsimp only at h
        cases hr : readParamType raw with
        | none => rw [hr] at h; simp at h
        | some pt =>
          rw [hr] at h
          dsimp only at h
          cases hrec : processInputs fname rest with
          | error e => rw [hrec] at h; simp at h
          | ok tail =>
            rw [hrec] at h
            dsimp only at h
            simp at h
            subst h
            simp [ht, processInputs_types fname rest tail hrec]

theorem processAll_mem :
    ∀ (s : List (Nat × Json)) ps, processAll s = .ok ps →
      ∀ p ∈ ps, ∃ q ∈ s, processItem q.1 q.2 = .ok p
  | [], ps, h => by
    simp [processAll] at h
    subst h
    simp
  | (i, it) :: rest, ps, h => by
    rw [processAll] at h
    cases hp : processItem i it with
    | error e => rw [hp] at h; simp at h
    | ok p0 =>
      rw [hp] at h
      dsimp only at h
      cases hrec : processAll rest with
      | error e => rw [hrec] at h; simp at h
      | ok ps' =>
        rw [hrec] at h
        dsimp only at h
        simp at h
        subst h
        intro p hmem
        rcases List.mem_cons.mp hmem with h1 | h2
        · exact ⟨(i, it), by simp, h1 ▸ hp⟩
        · obtain ⟨q, hq, hq2⟩ := processAll_mem rest ps' hrec p h2
          exact ⟨q, List.mem_cons_of_mem _ hq, hq2⟩

theorem processAll_pass1 :
    ∀ (s : List (Nat × Json)) ps, processAll s = .ok ps →
      ∀ acc, pass1 s acc = .ok ((ps.map (·.1)).foldl upsert acc)
  | [], ps, h, acc => by
    simp [processAll] at h
    subst h
    simp [pass1]
  | (i, it) :: rest, ps, h, acc => by
    rw [processAll] at h
    cases hp : processItem i it with
    | error e => rw [hp] at h; simp at h
    | ok p0 =>
      rw [hp] at h
      dsimp only at h
      cases hrec : processAll rest with
      | error e => rw [hrec] at h; simp at h
      | ok ps' =>
        rw [hrec] at h
        dsimp only at h
        simp at h
        subst h
        obtain ⟨n, ins⟩ := p0
        obtain ⟨hn, _⟩ := processItem_parts i it n ins hp
        rw [pass1, hn]
        simp [processAll_pass1 rest ps' hrec (upsert acc n)]

theorem upsert_lookup :
    ∀ (l : List (String × Bool)) (n k : String),
      (upsert l n).lookup k = if k = n then some ((l.lookup n).isSome) else l.lookup k
  | [], n, k => by
    by_cases hk : k = n
    · subst hk; simp [upsert, List.lookup]
    · have hb : (k == n) = false := by simp [hk]
      simp [upsert, List.lookup, hb, hk]
  | (a, b) :: rest, n, k => by
    by_cases han : a = n
    · subst han
      by_cases hk : k = a
      · subst hk
        simp [upsert, List.lookup]
      · have hkb : (k == a) = false := by simp [hk]
        simp [upsert, List.lookup, hkb, hk]
    · have hband : (a == n) = false := by simp [han]
      by_cases hk : k = a
      · subst hk
        have hnk : (n == k) = false := by
          rw [beq_eq_false_iff_ne]
          exact fun h => han h.symm
        simp [upsert, hband, List.lookup, han, hnk]
      · have hkb : (k == a) = false := by simp [hk]
        have hna : (n == a) = false := by
          rw [beq_eq_false_iff_ne]
          exact fun h => han h.symm
        simp [upsert, hband, List.lookup, hkb, hna, upsert_lookup rest n k]

theorem foldl_upsert_lookup :
    ∀ (ns : List String) (acc : List (String × Bool)) (k : String),
      (ns.foldl upsert acc).lookup k =
        match acc.lookup k with
        | none => if ns.count k = 0 then none else some (decide (2 ≤ ns.count k))
        | some b => some (b || decide (ns.count k ≠ 0))
  | [], acc, k => by cases h : acc.lookup k <;> simp [h]
  | m :: rest, acc, k => by
    rw [List.foldl_cons, foldl_upsert_lookup rest (upsert acc m) k, upsert_lookup acc m k]
    by_cases hk : k = m
    · subst hk
      cases hacc : acc.lookup k with
      | none =>
        simp only [hacc, List.count_cons]
        by_cases h0 : rest.count k = 0
        · simp [h0]
        · simp [h0]
          exact List.count_pos_iff.mp (Nat.pos_of_ne_zero h0)
      | some b => simp [hacc, List.count_cons]
    · have hb : (k == m) = false := by simp [hk]
      have hmk : ¬m = k := fun h => hk h.symm
      simp [if_neg hk, List.count_cons, hb, hmk]

/-- The overload flag pass 2 reads is exactly "the name occurs at
least twice among the surviving items". -/
theorem pass1_lookup (s : List (Nat × Json)) (ps : List (String × List Input))
    (hps : processAll s = .ok ps) (over : List (String × Bool))
    (hover : pass1 s [] = .ok over) (k : String) :
    (over.lookup k).getD false = decide (2 ≤ (ps.map (·.1)).count k) := by
  have h1 := processAll_pass1 s ps hps []
  rw [hover] at h1
  have h2 : over = (ps.map (·.1)).foldl upsert [] := Except.ok.inj h1
  subst h2
  rw [foldl_upsert_lookup]
  simp only [List.lookup]
  by_cases h0 : (ps.map (·.1)).count k = 0
  · simp [h0]
  · simp [h0]

theorem buildBuckets_fst (isOver : String → Bool) :
    ∀ (ps : List (String × List Input)) fs ofs,
      (buildBuckets isOver ps fs ofs).1 =
        fs ++ (ps.filter (fun p => !isOver p.1)).map (fun p => mkFunction p.1 p.2)
  | [], fs, ofs => by simp [buildBuckets]
  | (n, ins) :: rest, fs, ofs => by
    by_cases ho : isOver n <;>
      simp [buildBuckets, ho, buildBuckets_fst isOver rest]

theorem pushOverloaded_variantsOf :
    ∀ (gs : List OverloadedFunction) (n : String) (v : Variant) (k : String),
      variantsOf k (pushOverloaded gs n v) =
        if k = n then variantsOf k gs ++ [v] else variantsOf k gs
  | [], n, v, k => by
    by_cases hk : k = n
    · subst hk
      simp [pushOverloaded, variantsOf, List.find?]
    · have hb : (n == k) = false := by
        rw [beq_eq_false_iff_ne]
        exact fun h => hk h.symm
      simp [pushOverloaded, variantsOf, List.find?, hb, hk]
  | g :: gs, n, v, k => by
    by_cases hgn : g.name = n
    · have hgb : (g.name == n) = true := by simp [hgn]
      by_cases hk : k = n
      · subst hk
        have hgk : (g.name == k) = true := by simp [hgn]
        simp [pushOverloaded, variantsOf, List.find?, hgb, hgk, hgn]
      · have hgk : (g.name == k) = false := by
          rw [beq_eq_false_iff_ne, hgn]
          exact fun h => hk h.symm
        simp [pushOverloaded, variantsOf, List.find?, hgb, hgk, hk]
    · have hgb : (g.name == n) = false := by simp [hgn]
      by_cases hgk : g.name = k
      · have hgkb : (g.name == k) = true := by simp [hgk]
        have hk : ¬k = n := fun h => hgn (by rw [hgk, h])
        simp [pushOverloaded, variantsOf, List.find?, hgb, hgkb, hk]
      · have hgkb : (g.name == k) = false := by simp [hgk]
        have ih := pushOverloaded_variantsOf gs n v k
        simp only [variantsOf] at ih
        simp [pushOverloaded, variantsOf, List.find?, hgb, hgkb, ih]

theorem buildBuckets_snd_variantsOf (isOver : String → Bool) :
    ∀ (ps : List (String × List Input)) fs ofs k,
      variantsOf k (buildBuckets isOver ps fs ofs).2 =
        variantsOf k ofs ++
          (ps.filter (fun p => isOver p.1 && p.1 == k)).map (fun p => mkVariant p.1 p.2)
  | [], fs, ofs, k => by simp [buildBuckets]
  | (n, ins) :: rest, fs, ofs, k => by
    by_cases ho : isOver n
    · by_cases hk : k = n
      · subst hk
        simp [buildBuckets, ho, buildBuckets_snd_variantsOf isOver rest,
              pushOverloaded_variantsOf]
      · have hb : (n == k) = false := by
          rw [beq_eq_false_iff_ne]
          exact fun h => hk h.symm
        simp [buildBuckets, ho, buildBuckets_snd_variantsOf isOver rest,
              pushOverloaded_variantsOf, hb, hk]
    · have hb : isOver n = false := by simp [ho]
      simp [buildBuckets, hb, buildBuckets_snd_variantsOf isOver rest]

theorem pushOverloaded_names :
    ∀ (gs : List OverloadedFunction) (n : String) (v : Variant),
      (pushOverloaded gs n v).map (·.name) =
        if n ∈ gs.map (·.name) then gs.map (·.name) else gs.map (·.name) ++ [n]
  | [], n, v => by simp [pushOverloaded]
  | g :: gs, n, v => by
    by_cases hgn : g.name = n
    · have hgb : (g.name == n) = true := by simp [hgn]
      simp [pushOverloaded, hgb, hgn]
    · have hgb : (g.name == n) = false := by simp [hgn]
      have hne : ¬n = g.name := fun h => hgn h.symm
      simp [pushOverloaded, hgb, hne, pushOverloaded_names gs n v]
      by_cases hmem : ∃ a ∈ gs, a.name = n <;> simp [hmem]

theorem buildBuckets_snd_names (isOver : String → Bool) :
    ∀ (ps : List (String × List Input)) fs ofs,
      (buildBuckets isOver ps fs ofs).2.map (·.name) =
        ((ps.filter (fun p => isOver p.1)).map (·.1)).foldl
          (fun acc n => if n ∈ acc then acc else acc ++ [n]) (ofs.map (·.name))
  | [], fs, ofs => by simp [buildBuckets]
  | (n, ins) :: rest, fs, ofs => by
    by_cases ho : isOver n
    · simp [buildBuckets, ho, buildBuckets_snd_names isOver rest, pushOverloaded_names]
    · have hb : isOver n = false := by simp [ho]
      simp [buildBuckets, hb, buildBuckets_snd_names isOver rest]

/-- Structure of a successfully built module: buckets are exactly the
count-1 and count-≥2 partitions of the processed survivors, in input
order, with overloaded names in first-occurrence order. -/
theorem buildModule_structure (j : Json) (mn eid : String) (mod : Module)
    (ps : List (String × List Input))
    (h : buildModule j mn eid = .ok mod)
    (hps : processAll (survivors j) = .ok ps) :
    mod.name = mn ∧ mod.evm_id = eid ∧
    mod.functions =
      (ps.filter (fun p => (ps.map (·.1)).count p.1 = 1)).map (fun p => mkFunction p.1 p.2) ∧
    mod.overloaded_functions.map (·.name) =
      firstOccur ((ps.filter (fun p => 2 ≤ (ps.map (·.1)).count p.1)).map (·.1)) ∧
    (∀ k, variantsOf k mod.overloaded_functions =
      (ps.filter (fun p => 2 ≤ (ps.map (·.1)).count p.1 && p.1 == k)).map
        (fun p => mkVariant p.1 p.2)) := by
  rw [buildModule] at h
  cases h1 : pass1 (survivors j) [] with
  | error e => rw [h1] at h; simp at h
  | ok over =>
    rw [h1] at h
    dsimp only at h
    rw [buildModuleWith] at h
    cases h2 : pass2 (fun n => (over.lookup n).getD false) (survivors j) [] [] with
    | error e => rw [h2] at h; simp at h
    | ok r =>
      rw [h2] at h
      dsimp only at h
      obtain ⟨fs, ofs⟩ := r
      obtain ⟨ps', hps', hr⟩ := pass2_ok _ _ _ _ _ h2
      rw [hps] at hps'
      have hpseq : ps = ps' := Except.ok.inj hps'
      subst hpseq
      have hisof : (fun n => (over.lookup n).getD false) =
          (fun n => decide (2 ≤ (ps.map (·.1)).count n)) :=
        funext (pass1_lookup (survivors j) ps hps over h1)
      rw [hisof] at hr
      simp at h
      subst h
      refine ⟨rfl, rfl, ?_, ?_, ?_⟩
      · show fs = _
        have hfs : fs = (buildBuckets (fun n => decide (2 ≤ (ps.map (·.1)).count n)) ps [] []).1 :=
          congrArg Prod.fst hr
        rw [hfs, buildBuckets_fst]
        simp only [List.nil_append]
        congr 1
        apply List.filter_congr
        intro p hp
        have hpos : 0 < (ps.map (·.1)).count p.1 :=
          List.count_pos_iff.mpr (List.mem_map_of_mem _ hp)
        rcases Nat.lt_or_ge ((ps.map (·.1)).count p.1) 2 with hlt | hge
        · have hone : (ps.map (·.1)).count p.1 = 1 := by omega
          simp [hone]
        · have hne : ¬(ps.map (·.1)).count p.1 = 1 := by omega
          simp [hge, hne]
      · show ofs.map (·.name) = _
        have hofs : ofs = (buildBuckets (fun n => decide (2 ≤ (ps.map (·.1)).count n)) ps [] []).2 :=
          congrArg Prod.snd hr
        rw [hofs, buildBuckets_snd_names]
        simp [firstOccur]
      · intro k
        show variantsOf k ofs = _
        have hofs : ofs = (buildBuckets (fun n => decide (2 ≤ (ps.map (·.1)).count n)) ps [] []).2 :=
          congrArg Prod.snd hr
        rw [hofs, buildBuckets_snd_variantsOf]
        simp [variantsOf]

/-! ## C4: overload partitioning -/

theorem foldl_insert_mem :
    ∀ (l : List String) (acc : List String) (n : String),
      n ∈ l.foldl (fun acc n => if n ∈ acc then acc else acc ++ [n]) acc ↔ n ∈ acc ∨ n ∈ l
  | [], acc, n => by simp
  | m :: rest, acc, n => by
    rw [List.foldl_cons, foldl_insert_mem rest _ n]
    by_cases hm : m ∈ acc
    · simp only [hm, if_true, List.mem_cons]
      constructor
      · rintro (h | h)
        · exact Or.inl h
        · exact Or.inr (Or.inr h)
      · rintro (h | h | h)
        · exact Or.inl h
        · exact Or.inl (h ▸ hm)
        · exact Or.inr h
    · simp only [hm, if_false, List.mem_append, List.mem_singleton, List.mem_cons]
      tauto

theorem foldl_insert_nodup :
    ∀ (l : List String) (acc : List String), acc.Nodup →
      (l.foldl (fun acc n => if n ∈ acc then acc else acc ++ [n]) acc).Nodup
  | [], acc, h => h
  | m :: rest, acc, h => by
    rw [List.foldl_cons]
    by_cases hm : m ∈ acc
    · simp only [hm, if_true]
      exact foldl_insert_nodup rest acc h
    · simp only [hm, if_false]
      exact foldl_insert_nodup rest _ (by simp [List.nodup_append, h, hm])

theorem firstOccur_mem (l : List String) (n : String) : n ∈ firstOccur l ↔ n ∈ l := by
  rw [firstOccur, foldl_insert_mem]
  simp

theorem firstOccur_nodup (l : List String) : (firstOccur l).Nodup :=
  foldl_insert_nodup l [] List.nodup_nil

theorem variantsOf_of_mem :
    ∀ (gs : List OverloadedFunction), (gs.map (·.name)).Nodup →
      ∀ g ∈ gs, variantsOf g.name gs = g.variants
  | [], _, g, hg => by simp at hg
  | g' :: gs, hnd, g, hg => by
    rcases List.mem_cons.mp hg with h1 | h2
    · subst h1
      simp [variantsOf, List.find?]
    · have hne : g'.name ≠ g.name := by
        intro he
        have : g.name ∈ gs.map (·.name) := List.mem_map_of_mem _ h2
        rw [← he] at this
        exact (List.nodup_cons.mp (by simpa using hnd)).1 this
      have hb : (g'.name == g.name) = false := by simp [hne]
      rw [variantsOf]
      rw [List.find?]
      rw [hb]
      have := variantsOf_of_mem gs (List.nodup_cons.mp (by simpa using hnd)).2 g h2
      rw [variantsOf] at this
      exact this

theorem count_map_fst (ps : List (String × List Input)) (n : String) :
    (ps.map (·.1)).count n = ps.countP (fun p => p.1 == n) := by
  rw [List.count, List.countP_map]
  rfl

/-- **C4.** For every successfully built module, the buckets partition
the surviving processed items by name multiplicity alone:
`functions` is exactly the input-ordered image of the count-1 items,
`overloaded_functions` lists the count-≥2 names in first-occurrence
order, each group's variants are exactly that name's records in input
order with at least two of them, no name is in both buckets, and a
name in `functions` appears there exactly once. -/
theorem overload_partitioning (j : Json) (mn eid : String) (mod : Module)
    (ps : List (String × List Input))
    (h : buildModule j mn eid = .ok mod)
    (hps : processAll (survivors j) = .ok ps) :
    mod.functions =
      (ps.filter (fun p => (ps.map (·.1)).count p.1 = 1)).map (fun p => mkFunction p.1 p.2) ∧
    mod.overloaded_functions.map (·.name) =
      firstOccur ((ps.filter (fun p => 2 ≤ (ps.map (·.1)).count p.1)).map (·.1)) ∧
    (∀ g ∈ mod.overloaded_functions,
      g.variants = (ps.filter (fun p => p.1 == g.name)).map (fun p => mkVariant p.1 p.2) ∧
      2 ≤ g.variants.length) ∧
    (∀ n, ¬(n ∈ mod.functions.map (·.name) ∧ n ∈ mod.overloaded_functions.map (·.name))) ∧
    (∀ n, n ∈ mod.functions.map (·.name) → (mod.functions.map (·.name)).count n = 1) := by
  obtain ⟨-, -, hfs, hnames, hvars⟩ := buildModule_structure j mn eid mod ps h hps
  have hfnames : mod.functions.map (·.name) =
      (ps.filter (fun p => (ps.map (·.1)).count p.1 = 1)).map (·.1) := by
    rw [hfs, List.map_map]
    rfl
  have hofsmem : ∀ n, n ∈ mod.overloaded_functions.map (·.name) →
      2 ≤ (ps.map (·.1)).count n := by
    intro n hn
    rw [hnames, firstOccur_mem] at hn
    obtain ⟨p, hp, hpn⟩ := List.mem_map.mp hn
    obtain ⟨-, hp2⟩ := List.mem_filter.mp hp
    rw [← hpn]
    exact of_decide_eq_true hp2
  refine ⟨hfs, hnames, ?_, ?_, ?_⟩
  · intro g hg
    have hnd : (mod.overloaded_functions.map (·.name)).Nodup := by
      rw [hnames]; exact firstOccur_nodup _
    have hv : g.variants =
        (ps.filter (fun p => 2 ≤ (ps.map (·.1)).count p.1 && p.1 == g.name)).map
          (fun p => mkVariant p.1 p.2) := by
      rw [← variantsOf_of_mem mod.overloaded_functions hnd g hg, hvars g.name]
    have hcnt : 2 ≤ (ps.map (·.1)).count g.name :=
      hofsmem g.name (List.mem_map_of_mem _ hg)
    have hfilter :
        ps.filter (fun p => 2 ≤ (ps.map (·.1)).count p.1 && p.1 == g.name) =
        ps.filter (fun p => p.1 == g.name) := by
      apply List.filter_congr
      intro p hp
      by_cases hpn : p.1 = g.name
      · simp [hpn, hcnt]
      · simp [hpn]
    constructor
    · rw [hv, hfilter]
    · rw [hv, hfilter]
      rw [List.length_map, ← List.countP_eq_length_filter, ← count_map_fst]
      exact hcnt
  · intro n ⟨hn1, hn2⟩
    rw [hfnames] at hn1
    obtain ⟨p, hp, hpn⟩ := List.mem_map.mp hn1
    obtain ⟨-, hp2⟩ := List.mem_filter.mp hp
    have h1 : (ps.map (·.1)).count n = 1 := hpn ▸ of_decide_eq_true hp2
    have h2 := hofsmem n hn2
    omega
  · intro n hn
    rw [hfnames] at hn ⊢
    obtain ⟨p, hp, hpn⟩ := List.mem_map.mp hn
    obtain ⟨-, hp2⟩ := List.mem_filter.mp hp
    have h1 : (ps.map (·.1)).count n = 1 := hpn ▸ of_decide_eq_true hp2
    rw [count_map_fst, List.countP_filter]
    have : (fun (p : String × List Input) => p.1 == n && decide ((ps.map (·.1)).count p.1 = 1)) =
        (fun (p : String × List Input) => p.1 == n) := by
      funext p
      by_cases hpn' : p.1 = n
      · simp [hpn', h1]
      · simp [hpn']
    rw [this, ← count_map_fst, h1]

/-- Witness: the `a`/`a`/`b` ABI through the theorem — `b` lands in
`functions`, the two `a` records form one overloaded group. -/
theorem overload_partitioning_witness :
    ovModule.functions =
      (ovPs.filter (fun p => (ovPs.map (·.1)).count p.1 = 1)).map (fun p => mkFunction p.1 p.2) ∧
    ovModule.overloaded_functions.map (·.name) =
      firstOccur ((ovPs.filter (fun p => 2 ≤ (ovPs.map (·.1)).count p.1)).map (·.1)) ∧
    (∀ g ∈ ovModule.overloaded_functions,
      g.variants = (ovPs.filter (fun p => p.1 == g.name)).map (fun p => mkVariant p.1 p.2) ∧
      2 ≤ g.variants.length) ∧
    (∀ n, ¬(n ∈ ovModule.functions.map (·.name) ∧
            n ∈ ovModule.overloaded_functions.map (·.name))) ∧
    (∀ n, n ∈ ovModule.functions.map (·.name) →
      (ovModule.functions.map (·.name)).count n = 1) :=
  overload_partitioning ovAbi "M" "0x0F" ovModule ovPs (by rfl) (by rfl)

/-! ## C1: selector wire format and hash -/

theorem bytesHex_length : ∀ bs : List Nat, (bytesHex bs).length = 2 * bs.length
  | [] => rfl
  | b :: bs => by
    rw [bytesHex, String.length_append, bytesHex_length bs]
    simp [byteHex, String.length]
    omega

theorem hexDigits_getD_mem (n : Nat) : hexDigits.getD n '0' ∈ hexDigits := by
  rcases Nat.lt_or_ge n 16 with h | h
  · interval_cases n <;> decide
  · rw [List.getD_eq_default]
    · decide
    · simp [hexDigits]
      omega

theorem bytesHex_chars : ∀ (bs : List Nat) (c : Char), c ∈ (bytesHex bs).data → c ∈ hexDigits
  | [], c, h => by simp [bytesHex] at h
  | b :: bs, c, h => by
    rw [bytesHex, String.data_append] at h
    rcases List.mem_append.mp h with h1 | h2
    · have h1' : c ∈ [hexDigits.getD (b / 16 % 16) '0', hexDigits.getD (b % 16) '0'] := h1
      rcases List.mem_cons.mp h1' with h2 | h2
      · rw [h2]; exact hexDigits_getD_mem _
      · rcases List.mem_cons.mp h2 with h3 | h3
        · rw [h3]; exact hexDigits_getD_mem _
        · simp at h3
    · exact bytesHex_chars bs c h2

theorem selectorHash_length (s : String) : (selectorHash s).length = 8 := by
  rw [selectorHash, bytesHex_length, List.length_take]
  simp [keccak256]

theorem members_enum_types (l : List Json) :
    l.enum.map (fun q => (q.2.get "type").asStr) = l.map (fun inp => (inp.get "type").asStr) := by
  rw [show (fun (q : Nat × Json) => (q.2.get "type").asStr) =
      ((fun inp => (inp.get "type").asStr) ∘ Prod.snd) from rfl, ← List.map_map,
    List.enum_map_snd]

/-- From a successful build, recover the processed survivor list. -/
theorem buildModule_processAll (j : Json) (mn eid : String) (mod : Module)
    (h : buildModule j mn eid = .ok mod) :
    ∃ ps, processAll (survivors j) = .ok ps := by
  rw [buildModule] at h
  cases h1 : pass1 (survivors j) [] with
  | error e => rw [h1] at h; simp at h
  | ok over =>
    rw [h1] at h
    dsimp only at h
    rw [buildModuleWith] at h
    cases h2 : pass2 (fun n => (over.lookup n).getD false) (survivors j) [] [] with
    | error e => rw [h2] at h; simp at h
    | ok r =>
      obtain ⟨ps, hps, -⟩ := pass2_ok _ _ _ _ _ h2
      exact ⟨ps, hps⟩

/-- Every record in `functions` is the translation of a processed item. -/
theorem module_function_mem (j : Json) (mn eid : String) (mod : Module)
    (ps : List (String × List Input))
    (h : buildModule j mn eid = .ok mod)
    (hps : processAll (survivors j) = .ok ps)
    (f : Function) (hf : f ∈ mod.functions) :
    ∃ p ∈ ps, f = mkFunction p.1 p.2 := by
  obtain ⟨-, -, hfs, -, -⟩ := buildModule_structure j mn eid mod ps h hps
  rw [hfs] at hf
  obtain ⟨p, hp, hpf⟩ := List.mem_map.mp hf
  exact ⟨p, (List.mem_filter.mp hp).1, hpf.symm⟩

/-- Every variant in an overloaded group is the translation of a
processed item bearing the group's name. -/
theorem module_variant_mem (j : Json) (mn eid : String) (mod : Module)
    (ps : List (String × List Input))
    (h : buildModule j mn eid = .ok mod)
    (hps : processAll (survivors j) = .ok ps)
    (g : OverloadedFunction) (hg : g ∈ mod.overloaded_functions)
    (v : Variant) (hv : v ∈ g.variants) :
    ∃ p ∈ ps, p.1 = g.name ∧ v = mkVariant p.1 p.2 := by
  obtain ⟨-, -, -, hnames, hvars⟩ := buildModule_structure j mn eid mod ps h hps
  have hnd : (mod.overloaded_functions.map (·.name)).Nodup := by
    rw [hnames]; exact firstOccur_nodup _
  rw [← variantsOf_of_mem mod.overloaded_functions hnd g hg, hvars g.name] at hv
  obtain ⟨p, hp, hpv⟩ := List.mem_map.mp hv
  have hp1 := List.mem_filter.mp hp
  refine ⟨p, hp1.1, ?_, hpv.symm⟩
  have := hp1.2
  simp at this
  exact this.2

/-- Every processed item traces back to a surviving ABI item carrying
its name and raw input type strings. -/
theorem ps_survivor (j : Json) (ps : List (String × List Input))
    (hps : processAll (survivors j) = .ok ps)
    (p : String × List Input) (hp : p ∈ ps) :
    ∃ q ∈ survivors j, (q.2.get "name").asStr = some p.1 ∧
      (q.2.get "inputs").members.map (fun inp => (inp.get "type").asStr) =
        p.2.map (fun x => some x.evm_type) := by
  obtain ⟨q, hq, hqi⟩ := processAll_mem (survivors j) ps hps p hp
  obtain ⟨hname, hins⟩ := processItem_parts q.1 q.2 p.1 p.2 (by
    obtain ⟨p1, p2⟩ := p
    exact hqi)
  refine ⟨q, hq, hname, ?_⟩
  have h2 := processInputs_types p.1 _ _ hins
  rw [members_enum_types] at h2
  exact h2

/-- **C1.** For every record emitted by the E→I pipeline, the selector
is the function name followed by the parenthesised comma-separated raw
ABI type strings (no spaces), the `selector_hash` is the first 4 bytes
of Keccak-256 of the selector's UTF-8 bytes rendered as 8 lowercase
hexadecimal digits, and the type strings are exactly the surviving
item's `inputs[].type` strings. -/
theorem selector_correctness (j : Json) (mn eid : String) (mod : Module)
    (ps : List (String × List Input))
    (h : buildModule j mn eid = .ok mod)
    (hps : processAll (survivors j) = .ok ps) :
    (∀ f ∈ mod.functions,
      f.selector = f.name ++ "(" ++ String.intercalate "," (f.inputs.map (·.evm_type)) ++ ")" ∧
      f.selector_hash = bytesHex ((keccak256 (utf8Bytes f.selector)).take 4) ∧
      f.selector_hash.length = 8 ∧
      (∀ c ∈ f.selector_hash.data, c ∈ hexDigits) ∧
      ∃ q ∈ survivors j, (q.2.get "name").asStr = some f.name ∧
        (q.2.get "inputs").members.map (fun inp => (inp.get "type").asStr) =
          f.inputs.map (fun x => some x.evm_type)) ∧
    (∀ g ∈ mod.overloaded_functions, ∀ v ∈ g.variants,
      v.selector = g.name ++ "(" ++ String.intercalate "," (v.inputs.map (·.evm_type)) ++ ")" ∧
      v.selector_hash = bytesHex ((keccak256 (utf8Bytes v.selector)).take 4) ∧
      v.selector_hash.length = 8 ∧
      (∀ c ∈ v.selector_hash.data, c ∈ hexDigits) ∧
      ∃ q ∈ survivors j, (q.2.get "name").asStr = some g.name ∧
        (q.2.get "inputs").members.map (fun inp => (inp.get "type").asStr) =
          v.inputs.map (fun x => some x.evm_type)) := by
  constructor
  · intro f hf
    obtain ⟨p, hp, hpf⟩ := module_function_mem j mn eid mod ps h hps f hf
    subst hpf
    refine ⟨rfl, rfl, selectorHash_length _, fun c hc => bytesHex_chars _ c hc, ?_⟩
    exact ps_survivor j ps hps p hp
  · intro g hg v hv
    obtain ⟨p, hp, hpn, hpv⟩ := module_variant_mem j mn eid mod ps h hps g hg v hv
    subst hpv
    rw [← hpn]
    refine ⟨rfl, rfl, selectorHash_length _, fun c hc => bytesHex_chars _ c hc, ?_⟩
    exact ps_survivor j ps hps p hp

/-- Witness: scenario S1 — `transfer(address,uint256)` hashing to
`a9059cbb` through the theorem. -/
theorem selector_correctness_witness :
    s1Fn.selector = s1Fn.name ++ "(" ++ String.intercalate "," (s1Fn.inputs.map (·.evm_type)) ++ ")" ∧
    s1Fn.selector_hash = bytesHex ((keccak256 (utf8Bytes s1Fn.selector)).take 4) ∧
    s1Fn.selector_hash.length = 8 ∧
    (∀ c ∈ s1Fn.selector_hash.data, c ∈ hexDigits) ∧
    (∃ q ∈ survivors s1Abi, (q.2.get "name").asStr = some s1Fn.name ∧
      (q.2.get "inputs").members.map (fun inp => (inp.get "type").asStr) =
        s1Fn.inputs.map (fun x => some x.evm_type)) :=
  (selector_correctness s1Abi "Erc20" "0x0F" s1Module [("transfer", s1Fn.inputs)]
    (by rfl) (by rfl)).1 s1Fn (by simp [s1Module])

/-! ## C10: empty outputs pass the filter vacuously -/

theorem enumFrom_mem_of_get? {α : Type} :
    ∀ (l : List α) (n i : Nat) (a : α), l[i]? = some a → (n + i, a) ∈ List.enumFrom n l
  | [], n, i, a, h => by simp at h
  | x :: t, n, 0, a, h => by
    simp at h
    subst h
    simp [List.enumFrom]
  | x :: t, n, i + 1, a, h => by
    simp at h
    have := enumFrom_mem_of_get? t (n + 1) i a h
    rw [List.enumFrom]
    refine List.mem_cons_of_mem _ ?_
    have harith : n + (i + 1) = (n + 1) + i := by omega
    rw [harith]
    exact this

/-- **C10.** A non-view function item with an empty `outputs` array
passes the every-output-is-bool filter vacuously and so survives; and
every record the pipeline emits — function or variant — has its output
hard-coded to the string `bool`. -/
theorem empty_outputs_vacuous_bool :
    (∀ it : Json, (it.get "type").eqStr "function" = true →
      (it.get "stateMutability").eqStr "view" = false →
      it.get "outputs" = Json.arr [] → isFnItem it = true) ∧
    (∀ (items : List Json) (i : Nat) (it : Json),
      items.get? i = some it → isFnItem it = true → (i, it) ∈ survivors (Json.arr items)) ∧
    (∀ (j : Json) (mn eid : String) (mod : Module), buildModule j mn eid = .ok mod →
      (∀ f ∈ mod.functions, f.output = "bool") ∧
      (∀ g ∈ mod.overloaded_functions, ∀ v ∈ g.variants, v.output = "bool")) := by
  refine ⟨?_, ?_, ?_⟩
  · intro it hty hsm hout
    rw [isFnItem, hty, hsm, hout]
    simp [Json.members]
  · intro items i it hget hfn
    rw [List.get?_eq_getElem?] at hget
    rw [survivors]
    apply List.mem_filter.mpr
    refine ⟨?_, hfn⟩
    show (i, it) ∈ (Json.arr items).members.enum
    rw [Json.members, List.enum]
    have := enumFrom_mem_of_get? items 0 i it hget
    simpa using this
  · intro j mn eid mod h
    obtain ⟨ps, hps⟩ := buildModule_processAll j mn eid mod h
    constructor
    · intro f hf
      obtain ⟨p, hp, hpf⟩ := module_function_mem j mn eid mod ps h hps f hf
      rw [hpf]
      rfl
    · intro g hg v hv
      obtain ⟨p, hp, hpn, hpv⟩ := module_variant_mem j mn eid mod ps h hps g hg v hv
      rw [hpv]
      rfl

/-- Witness: the first `a` item of the overload fixture has empty
outputs and no `stateMutability`; it survives and all records of the
built module carry output `bool`. -/
theorem empty_outputs_vacuous_bool_witness :
    isFnItem ovItem1 = true ∧
    (0, ovItem1) ∈ survivors ovAbi ∧
    (∀ f ∈ ovModule.functions, f.output = "bool") ∧
    (∀ g ∈ ovModule.overloaded_functions, ∀ v ∈ g.variants, v.output = "bool") :=
  ⟨empty_outputs_vacuous_bool.1 ovItem1 (by rfl) (by rfl) (by rfl),
   empty_outputs_vacuous_bool.2.1 [ovItem1, ovItem2, ovItem3] 0 ovItem1 (by rfl) (by rfl),
   (empty_outputs_vacuous_bool.2.2 ovAbi "M" "0x0F" ovModule (by rfl)).1,
   (empty_outputs_vacuous_bool.2.2 ovAbi "M" "0x0F" ovModule (by rfl)).2⟩

/-! ## C9: determinism and hash-order independence -/

theorem upsert_keys :
    ∀ (l : List (String × Bool)) (n : String),
      (upsert l n).map (·.1) =
        if n ∈ l.map (·.1) then l.map (·.1) else l.map (·.1) ++ [n]
  | [], n => by simp [upsert]
  | (a, b) :: rest, n => by
    by_cases han : a = n
    · subst han
      simp [upsert]
    · have hb : (a == n) = false := by simp [han]
      have hne : ¬n = a := fun h => han h.symm
      simp [upsert, hb, hne, upsert_keys rest n]
      by_cases hmem : (n, false) ∈ rest ∨ (n, true) ∈ rest
      · simp [hmem]
      · simp [hmem]

theorem pass1_keys_nodup :
    ∀ (s : List (Nat × Json)) (acc : List (String × Bool)) (over : List (String × Bool)),
      (acc.map (·.1)).Nodup → pass1 s acc = .ok over → (over.map (·.1)).Nodup
  | [], acc, over, hnd, h => by
    rw [pass1] at h
    rw [← Except.ok.inj h]
    exact hnd
  | (i, it) :: rest, acc, over, hnd, h => by
    rw [pass1] at h
    cases hn : (it.get "name").asStr with
    | none => rw [hn] at h; simp at h
    | some n =>
      rw [hn] at h
      refine pass1_keys_nodup rest (upsert acc n) over ?_ h
      rw [upsert_keys]
      by_cases hmem : n ∈ acc.map (·.1)
      · rw [if_pos hmem]
        exact hnd
      · rw [if_neg hmem, List.nodup_append]
        exact ⟨hnd, List.nodup_singleton n,
          fun a ha hb => hmem ((List.mem_singleton.mp hb) ▸ ha)⟩

theorem perm_lookup {β : Type} :
    ∀ (l l' : List (String × β)), l.Perm l' → (l'.map (·.1)).Nodup →
      ∀ k, l.lookup k = l'.lookup k := by
  intro l l' h
  induction h with
  | nil => intro _ _; rfl
  | cons x h ih =>
    intro hnd k
    rw [List.map_cons] at hnd
    have hnd' := (List.nodup_cons.mp hnd).2
    cases hk : k == x.1 <;> simp [List.lookup, hk, ih hnd' k]
  | swap x y t =>
    intro hnd k
    rw [List.map_cons, List.map_cons] at hnd
    have hx1 := (List.nodup_cons.mp hnd).1
    have hxy : x.1 ≠ y.1 := fun he => hx1 (he ▸ List.mem_cons_self _ _)
    cases hkx : k == x.1 with
    | false => cases hky : k == y.1 <;> simp [List.lookup, hkx, hky]
    | true =>
      cases hky : k == y.1 with
      | false => simp [List.lookup, hkx, hky]
      | true =>
        exact absurd ((eq_of_beq hkx).symm.trans (eq_of_beq hky)) hxy
  | trans h1 h2 ih1 ih2 =>
    intro hnd k
    have hmid : _ := ((h2.map (·.1)).nodup_iff).mpr hnd
    rw [ih1 hmid k, ih2 hnd k]

/-- **C9.** The E→I pipeline is deterministic: running it twice on the
same input yields identical output, and the only unordered container
in the pipeline — pass 1's overload hash map — reaches the output
solely through key lookups: replacing its backing list by any
permutation leaves the rendered output byte-identical. -/
theorem pipeline_deterministic :
    (∀ (j : Json) (mn eid : String), render j mn eid = render j mn eid) ∧
    (∀ (j : Json) (mn eid : String) (over over' : List (String × Bool)),
      pass1 (survivors j) [] = .ok over → over'.Perm over →
      renderWith over' j mn eid = renderWith over j mn eid) := by
  refine ⟨fun _ _ _ => rfl, ?_⟩
  intro j mn eid over over' h1 hperm
  have hnd : (over.map (·.1)).Nodup := pass1_keys_nodup (survivors j) [] over (by simp) h1
  have hfun : (fun n => (over'.lookup n).getD false) =
      (fun n => (over.lookup n).getD false) :=
    funext fun n => by rw [perm_lookup over' over hperm hnd n]
  rw [renderWith, renderWith, buildModuleWith, buildModuleWith, hfun]

/-- Witness: the overload fixture's pass-1 map, reversed, renders the
same module text. -/
theorem pipeline_deterministic_witness :
    render ovAbi "M" "0x0F" = render ovAbi "M" "0x0F" ∧
    renderWith [("b", false), ("a", true)] ovAbi "M" "0x0F" =
      renderWith [("a", true), ("b", false)] ovAbi "M" "0x0F" :=
  ⟨pipeline_deterministic.1 ovAbi "M" "0x0F",
   pipeline_deterministic.2 ovAbi "M" "0x0F" [("a", true), ("b", false)]
     [("b", false), ("a", true)] (by decide) (by decide)⟩

/-! ## C7: missing `name` failure and unknown-field insensitivity -/

theorem pass1_firstBad :
    ∀ (s : List (Nat × Json)) (acc : List (String × Bool)) (i : Nat),
      firstBadName s = some i → pass1 s acc = .error (.metadata (nameErrMsg i))
  | [], acc, i, h => by simp [firstBadName] at h
  | (idx, it) :: rest, acc, i, h => by
    rw [firstBadName, List.find?] at h
    cases hn : (it.get "name").asStr with
    | none =>
      have hpred : ((survivorName (idx, it)).isNone) = true := by simp [survivorName, hn]
      rw [hpred] at h
      simp at h
      rw [pass1, hn, h]
    | some n =>
      have hpred : ((survivorName (idx, it)).isNone) = false := by simp [survivorName, hn]
      rw [hpred] at h
      rw [pass1, hn]
      exact pass1_firstBad rest (upsert acc n) i h

theorem itemView_get (a b : Json) (h : itemView a = itemView b) :
    a.get "type" = b.get "type" ∧ a.get "stateMutability" = b.get "stateMutability" ∧
    a.get "outputs" = b.get "outputs" ∧ a.get "name" = b.get "name" ∧
    a.get "inputs" = b.get "inputs" := by
  rw [itemView, itemView] at h
  simpa [Prod.ext_iff] using h

theorem isFnItem_congr (a b : Json) (h : itemView a = itemView b) :
    isFnItem a = isFnItem b := by
  obtain ⟨h1, h2, h3, -, -⟩ := itemView_get a b h
  rw [isFnItem, isFnItem, h1, h2, h3]

theorem processItem_congr (i : Nat) (a b : Json) (h : itemView a = itemView b) :
    processItem i a = processItem i b := by
  obtain ⟨-, -, -, h4, h5⟩ := itemView_get a b h
  rw [processItem, processItem, h4, h5]

theorem enumFrom_views :
    ∀ (n : Nat) (items items' : List Json), items.map itemView = items'.map itemView →
      List.Forall₂ (fun p q => p.1 = q.1 ∧ itemView p.2 = itemView q.2)
        (List.enumFrom n items) (List.enumFrom n items')
  | _, [], [], _ => by simp
  | _, [], _ :: _, h => by simp at h
  | _, _ :: _, [], h => by simp at h
  | n, a :: as, b :: bs, h => by
    simp only [List.map_cons, List.cons.injEq] at h
    rw [List.enumFrom, List.enumFrom]
    exact List.Forall₂.cons ⟨rfl, h.1⟩ (enumFrom_views (n + 1) as bs h.2)

theorem filter_forall2 {α : Type} {R : α → α → Prop} {pred : α → Bool}
    (hc : ∀ a b, R a b → pred a = pred b) :
    ∀ {l l' : List α}, List.Forall₂ R l l' →
      List.Forall₂ R (l.filter pred) (l'.filter pred) := by
  intro l l' h
  induction h with
  | nil => exact List.Forall₂.nil
  | cons hab h ih =>
    rename_i a b t t'
    rw [List.filter_cons, List.filter_cons, ← hc a b hab]
    cases pred a
    · exact ih
    · exact List.Forall₂.cons hab ih

theorem survivors_congr (items items' : List Json)
    (h : items.map itemView = items'.map itemView) :
    List.Forall₂ (fun p q => p.1 = q.1 ∧ itemView p.2 = itemView q.2)
      (survivors (Json.arr items)) (survivors (Json.arr items')) := by
  rw [survivors, survivors]
  apply filter_forall2
  · intro a b hab
    exact isFnItem_congr a.2 b.2 hab.2
  · exact enumFrom_views 0 items items' h

theorem pass1_congr :
    ∀ {s s' : List (Nat × Json)},
      List.Forall₂ (fun p q => p.1 = q.1 ∧ itemView p.2 = itemView q.2) s s' →
      ∀ acc, pass1 s acc = pass1 s' acc := by
  intro s s' h
  induction h with
  | nil => intro acc; rfl
  | cons hab h ih =>
    rename_i p q t t'
    intro acc
    obtain ⟨i, a⟩ := p
    obtain ⟨i', b⟩ := q
    obtain ⟨hidx, hview⟩ := hab
    simp only at hidx
    subst hidx
    obtain ⟨-, -, -, h4, -⟩ := itemView_get a b hview
    rw [pass1, pass1, h4]
    cases (b.get "name").asStr with
    | none => rfl
    | some n => exact ih (upsert acc n)

theorem pass2_congr (isOver : String → Bool) :
    ∀ {s s' : List (Nat × Json)},
      List.Forall₂ (fun p q => p.1 = q.1 ∧ itemView p.2 = itemView q.2) s s' →
      ∀ fs ofs, pass2 isOver s fs ofs = pass2 isOver s' fs ofs := by
  intro s s' h
  induction h with
  | nil => intro fs ofs; rfl
  | cons hab h ih =>
    rename_i p q t t'
    intro fs ofs
    obtain ⟨i, a⟩ := p
    obtain ⟨i', b⟩ := q
    obtain ⟨hidx, hview⟩ := hab
    simp only at hidx
    subst hidx
    rw [pass2, pass2, processItem_congr i a b hview]
    cases processItem i b with
    | error e => rfl
    | ok p0 =>
      obtain ⟨n, ins⟩ := p0
      dsimp only
      by_cases ho : isOver n
      · rw [if_pos ho, if_pos ho, ih]
      · rw [if_neg ho, if_neg ho, ih]

/-- The pipeline output depends on each ABI item only through the five
fields it reads. -/
theorem render_congr (items items' : List Json)
    (h : items.map itemView = items'.map itemView) (mn eid : String) :
    render (Json.arr items) mn eid = render (Json.arr items') mn eid := by
  have hs := survivors_congr items items' h
  rw [render, render, buildModule, buildModule, pass1_congr hs []]
  cases pass1 (survivors (Json.arr items')) [] with
  | error e => rfl
  | ok over =>
    dsimp only
    rw [buildModuleWith, buildModuleWith, pass2_congr _ hs [] []]

theorem list_map_set {α β : Type} (f : α → β) :
    ∀ (l : List α) (i : Nat) (a : α), (l.set i a).map f = (l.map f).set i (f a)
  | [], _, _ => rfl
  | _ :: _, 0, _ => rfl
  | x :: t, i + 1, a => by
    rw [List.set, List.map, List.map, List.set, list_map_set f t i a]

theorem list_set_of_get {α : Type} :
    ∀ (l : List α) (i : Nat) (a : α), l[i]? = some a → l.set i a = l
  | [], i, a, h => by simp at h
  | x :: t, 0, a, h => by
    simp at h
    rw [List.set, h]
  | x :: t, i + 1, a, h => by
    simp at h
    rw [List.set, list_set_of_get t i a h]

theorem lookup_append_not_last {β : Type} :
    ∀ (fields : List (String × β)) (key k : String) (v : β), ¬key = k →
      (fields ++ [(k, v)]).lookup key = fields.lookup key
  | [], key, k, v, hne => by
    have hb : (key == k) = false := by simp [hne]
    simp [List.lookup, hb]
  | (a, b) :: rest, key, k, v, hne => by
    cases hk : key == a <;>
      simp [List.lookup, hk, lookup_append_not_last rest key k v hne]

/-- **C7 (amended).** A surviving ABI item whose `name` is absent or
not a string makes the pipeline fail with the `Error::Metadata`
message naming the item's original index and the `name` field (there
is no `MalformedAbi` variant in `src/error.rs`); the first such item
determines the error.  Fields other than the five the pipeline reads
are ignored: appending any unknown field to an item leaves the output
unchanged. -/
theorem missing_name_metadata_error :
    (∀ (j : Json) (mn eid : String) (i : Nat), firstBadName (survivors j) = some i →
      render j mn eid = .error (.metadata (nameErrMsg i))) ∧
    (∀ (items : List Json) (i : Nat) (fields : List (String × Json)) (k : String) (v : Json)
       (mn eid : String),
      items[i]? = some (Json.obj fields) →
      k ∉ (["type", "stateMutability", "outputs", "name", "inputs"] : List String) →
      render (Json.arr (items.set i (Json.obj (fields ++ [(k, v)])))) mn eid =
        render (Json.arr items) mn eid) := by
  constructor
  · intro j mn eid i h
    rw [render, buildModule, pass1_firstBad (survivors j) [] i h]
  · intro items i fields k v mn eid hget hk
    apply render_congr
    have hview : itemView (Json.obj (fields ++ [(k, v)])) = itemView (Json.obj fields) := by
      have hgets : ∀ key : String, ¬key = k →
          (Json.obj (fields ++ [(k, v)])).get key = (Json.obj fields).get key := by
        intro key hkey
        rw [Json.get, Json.get, lookup_append_not_last fields key k v hkey]
      rw [itemView, itemView,
        hgets "type" (fun h => hk (by rw [← h]; simp)),
        hgets "stateMutability" (fun h => hk (by rw [← h]; simp)),
        hgets "outputs" (fun h => hk (by rw [← h]; simp)),
        hgets "name" (fun h => hk (by rw [← h]; simp)),
        hgets "inputs" (fun h => hk (by rw [← h]; simp))]
    rw [list_map_set, hview]
    apply list_set_of_get
    rw [List.getElem?_map, hget]
    rfl

/-- **C7 (counterexample).** The missing-`name` failure is an
`Error::Metadata` value carrying the message text, not a dedicated
`MalformedAbi` error kind — no such variant exists in the embedded
`Error` type from `src/error.rs`. -/
theorem missing_name_counterexample :
    render (Json.arr [Json.obj [("type", Json.str "function")]]) "M" "0x0F" =
      .error (.metadata (nameErrMsg 0)) := by
  rfl

/-- Witness: a one-item ABI missing `name` errs with index 0, and an
unknown `extra` field appended to the overload fixture's first item
changes nothing. -/
theorem missing_name_metadata_error_witness :
    render (Json.arr [Json.obj [("type", Json.str "function"), ("outputs", Json.arr [])]])
        "M" "0x0F" = .error (.metadata (nameErrMsg 0)) ∧
    render (Json.arr ([ovItem1, ovItem2, ovItem3].set 0
        (Json.obj ([("type", Json.str "function"), ("name", Json.str "a"),
                    ("inputs", Json.arr []), ("outputs", Json.arr [])] ++
                   [("extra", Json.null)])))) "M" "0x0F" =
      render (Json.arr [ovItem1, ovItem2, ovItem3]) "M" "0x0F" :=
  ⟨missing_name_metadata_error.1
      (Json.arr [Json.obj [("type", Json.str "function"), ("outputs", Json.arr [])]])
      "M" "0x0F" 0 (by rfl),
   missing_name_metadata_error.2 [ovItem1, ovItem2, ovItem3] 0
     [("type", Json.str "function"), ("name", Json.str "a"),
      ("inputs", Json.arr []), ("outputs", Json.arr [])]
     "extra" Json.null "M" "0x0F" (by rfl) (by decide)⟩

end Sumi
